import Mathlib

/-!
# watchdogd: pet expiration and control-fifo parsing

A shallow embedding of `init/watchdogd.c`.  C `long` and `time_t` values are
mathematical integers; a C `int` is an integer that every `int` operation
re-normalises into the 32-bit two's-complement range (`wrapInt`).  The clock
(`gettimeofday`) is an input: each call of `currentTime` in the source takes
one clock reading, passed explicitly.  Results of system calls (`select`,
`read`, `ioctl`, ...) are inputs as well, and the calls issued are recorded as a
list of events.  The `<sys/time.h>` macros and the libc functions `strchr` and
`strtol` follow their standard definitions.  The `INFO`/`ERROR` log calls have
no effect on any value and are left out.

`getLastNumberInBuffer` itself is a function of the memory behind its pointer
argument.  Its caller `getNewPetExpiration` passes the array `char buf[1024]`:
there the offsets of the stores of the scan are tracked (`storesOf`), and a call
in which a store misses the buffer has no defined result (`none`), as has every
iteration of the event loop that makes such a call.
-/

namespace Watchdogd

/-! ## Machine integers -/

/-- Largest value of a 32-bit C `int`. -/
def INT_MAX : Int := 2147483647

/-- Smallest value of a 32-bit C `int`. -/
def INT_MIN : Int := -2147483648

/-- Largest value of a 64-bit C `long`. -/
def LONG_MAX : Int := 9223372036854775807

/-- Smallest value of a 64-bit C `long`. -/
def LONG_MIN : Int := -9223372036854775808

/-- Conversion of an integer to a 32-bit `int`: reduction modulo `2^32` into
the two's-complement range, as performed when a `long` argument is passed to an
`int` parameter and when an `int` operation overflows. -/
def wrapInt (x : Int) : Int := (x + 2147483648) % 4294967296 - 2147483648

/-- The value is representable as a 32-bit `int`. -/
def isInt (x : Int) : Prop := INT_MIN ≤ x ∧ x ≤ INT_MAX

instance (x : Int) : Decidable (isInt x) := by
  unfold isInt; infer_instance

/-! ## `struct timeval` and the `<sys/time.h>` macros -/

/-- The C `struct timeval`. -/
structure Timeval where
  tv_sec : Int
  tv_usec : Int
  deriving DecidableEq, Repr

/-- The duration of a timeval in microseconds. -/
def Timeval.toMicros (tv : Timeval) : Int := tv.tv_sec * 1000000 + tv.tv_usec

/-- A timeval is normalised when its microsecond field lies in `[0, 10^6)`, as
for every value produced by `gettimeofday`. -/
def Timeval.normalized (tv : Timeval) : Prop := 0 ≤ tv.tv_usec ∧ tv.tv_usec < 1000000

instance (tv : Timeval) : Decidable tv.normalized := by
  unfold Timeval.normalized; infer_instance

/-- The `timerclear` macro of `<sys/time.h>`. -/
def timerclear : Timeval := ⟨0, 0⟩

/-- The `timeradd` macro of `<sys/time.h>`: field-wise sum with one carry. -/
def timeradd (a b : Timeval) : Timeval :=
  let sec := a.tv_sec + b.tv_sec
  let usec := a.tv_usec + b.tv_usec
  if usec ≥ 1000000 then ⟨sec + 1, usec - 1000000⟩ else ⟨sec, usec⟩

/-- The `timersub` macro of `<sys/time.h>`: field-wise difference with one borrow. -/
def timersub (a b : Timeval) : Timeval :=
  let sec := a.tv_sec - b.tv_sec
  let usec := a.tv_usec - b.tv_usec
  if usec < 0 then ⟨sec - 1, usec + 1000000⟩ else ⟨sec, usec⟩

/-- The `timercmp(a, b, <)` macro of `<sys/time.h>`: microseconds are compared
when the seconds are equal, otherwise the seconds. -/
def timercmpLt (a b : Timeval) : Bool :=
  if a.tv_sec = b.tv_sec then decide (a.tv_usec < b.tv_usec) else decide (a.tv_sec < b.tv_sec)

/-! ## Clock utilities -/

/-- `timeInNSeconds(int n)`: the clock reading `ct` plus `n` seconds. -/
def timeInNSeconds (n : Int) (ct : Timeval) : Timeval :=
  let tv : Timeval := { timerclear with tv_sec := n }
  timeradd ct tv

/-- `timeLeft(tv)`: the time from the clock reading `ct` to `tv`. -/
def timeLeft (tv : Timeval) (ct : Timeval) : Timeval :=
  timersub tv ct

/-- `isExpired(expiration)`: `timercmp(expiration, ct, <)` at the clock reading `ct`. -/
def isExpired (expiration : Timeval) (ct : Timeval) : Bool :=
  timercmpLt expiration ct

/-- `getLesserTimeout(timeout, expiration)`.  The source reads the clock twice:
`ct1` is the reading of its `isExpired` test, `ct2` that of `timeLeft`. -/
def getLesserTimeout (timeout : Int) (expiration : Timeval) (ct1 ct2 : Timeval) : Timeval :=
  let tv : Timeval := { timerclear with tv_sec := timeout }
  if isExpired expiration ct1 then
    tv
  else
    let timeTillExpiration := timeLeft expiration ct2
    if timercmpLt tv timeTillExpiration then tv else timeTillExpiration

/-! ## C strings in memory -/

/-- Memory addressed by byte offset from the start of `buf`; a byte is its
numeric value.  Offsets past the buffer are the memory that follows it. -/
abbrev Mem := Nat → Nat

/-- Store of one byte: `m[p] = v`. -/
def Mem.write (m : Mem) (p v : Nat) : Mem := fun i => if i = p then v else m i

/-- Memory holding the given bytes from offset 0 on, zero elsewhere. -/
def Mem.ofBytes (bs : List Nat) : Mem := fun i => bs.getD i 0

/-- Memory holding the characters of a string from offset 0 on. -/
def Mem.ofString (s : String) : Mem := Mem.ofBytes (s.toList.map Char.toNat)

/-- The NUL-terminated string that starts at offset `p`: the bytes before the
first zero byte.  At most `fuel` bytes are inspected; `none` when none of them
is zero (the C library would run past the region). -/
def cstr (m : Mem) : Nat → Nat → Option (List Nat)
  | 0, _ => none
  | fuel + 1, p => if m p = 0 then some [] else (cstr m fuel (p + 1)).map (m p :: ·)

/-- The libc `strchr(s, c)` for `c ≠ 0` on the NUL-terminated string `s`: offset
of the first occurrence of `c`, or `none` for `NULL`. -/
def strchr : List Nat → Nat → Option Nat
  | [], _ => none
  | x :: xs, c => if x = c then some 0 else (strchr xs c).map (· + 1)

/-- The libc `isspace` in the C locale. -/
def isspace (c : Nat) : Bool := c == 32 || (9 ≤ c && c ≤ 13)

/-- The libc `isdigit`. -/
def isdigit (c : Nat) : Bool := 48 ≤ c && c ≤ 57

/-- Value of a run of decimal digit characters. -/
def digitsValue (ds : List Nat) : Nat := ds.foldl (fun acc d => acc * 10 + (d - 48)) 0

/-- Saturation of `strtol` results to the range of `long`. -/
def clampLong (v : Int) : Int :=
  if v > LONG_MAX then LONG_MAX else if v < LONG_MIN then LONG_MIN else v

/-- The libc `strtol(s, &endptr, 10)` on the NUL-terminated string `s`: leading
white space, an optional sign, then decimal digits.  Returns the converted value
and the number of characters consumed (`endptr - s`); with no digits the value
is 0 and nothing is consumed. -/
def strtol (s : List Nat) : Int × Nat :=
  let ws := s.takeWhile isspace
  let r := s.dropWhile isspace
  let neg := r.head? = some 45
  let signLen := if r.head? = some 45 ∨ r.head? = some 43 then 1 else 0
  let ds := (r.drop signLen).takeWhile isdigit
  if ds = [] then (0, 0)
  else
    let v : Int := digitsValue ds
    (clampLong (if neg then -v else v), ws.length + signLen + ds.length)

/-! ## The textual protocol of the control channel -/

/-- The memory holds the bytes `bs` from offset `p` on. -/
def Mem.holds (m : Mem) : Nat → List Nat → Prop
  | _, [] => True
  | p, b :: bs => m p = b ∧ Mem.holds m (p + 1) bs

instance Mem.decidableHolds (m : Mem) : (p : Nat) → (bs : List Nat) → Decidable (Mem.holds m p bs)
  | _, [] => isTrue trivial
  | p, b :: bs =>
    match Nat.decEq (m p) b, Mem.decidableHolds m (p + 1) bs with
    | isTrue h1, isTrue h2 => isTrue ⟨h1, h2⟩
    | isFalse h1, _ => isFalse (fun h => h1 h.1)
    | _, isFalse h2 => isFalse (fun h => h2 h.2)

/-- The bytes of a chunk made of the given lines, each followed by a newline. -/
def joinLines : List (List Nat) → List Nat
  | [] => []
  | t :: ts => t ++ 10 :: joinLines ts

/-- The content of a line of text: no NUL byte and no newline byte. -/
def isToken (t : List Nat) : Prop := ∀ c ∈ t, c ≠ 0 ∧ c ≠ 10

instance (t : List Nat) : Decidable (isToken t) := by
  unfold isToken; infer_instance

/-- The integer a token stands for when the token, in its entirety, is a base-10
integer for `strtol`: it is not empty and the conversion consumes all of it. -/
def tokenValue (t : List Nat) : Option Int :=
  if t ≠ [] ∧ (strtol t).2 = t.length then some (strtol t).1 else none

/-- The newline-delimited tokens of a chunk. -/
def tokensOf (bs : List Nat) : List (List Nat) := bs.splitOn 10

/-- The parsing contract in the words of the specification: the value of the
last newline-delimited token of the chunk that parses as a complete integer,
`none` when there is no such token. -/
def lastCompleteInteger (bs : List Nat) : Option Int :=
  ((tokensOf bs).filterMap tokenValue).getLast?

/-- The bytes of a string. -/
def bytesOf (s : String) : List Nat := s.toList.map Char.toNat

/-! ## Control fifo -/

/-- System calls issued by the daemon, in program order. -/
inductive Event
  | write (fd : Int)
  | select (nfds : Int) (timeout : Timeval)
  | read (fd : Int)
  | close (fd : Int)
  | unlink
  | mkfifo
  | openFifo
  | fchmod (fd : Int)
  | openWatchdog
  | ioctlSetTimeout (fd : Int) (timeout : Int)
  | ioctlGetTimeout (fd : Int)
  deriving DecidableEq, Repr

/-- The event is a `write` system call (the daemon writes only to pet the device). -/
def Event.isWrite : Event → Bool
  | Event.write _ => true
  | _ => false

/-- Results of the system calls of `createAndOpenPetForReading`. -/
structure FifoEnv where
  mkfifoRet : Int
  openFd : Int
  deriving DecidableEq, Repr

/-- `createAndOpenPetForReading()`: the calls issued and the descriptor returned. -/
def createAndOpenPetForReading (e : FifoEnv) : List Event × Int :=
  if e.mkfifoRet ≠ 0 then
    ([Event.unlink, Event.mkfifo], -1)
  else if e.openFd < 0 then
    ([Event.unlink, Event.mkfifo, Event.openFifo], e.openFd)
  else
    ([Event.unlink, Event.mkfifo, Event.openFifo, Event.fchmod e.openFd], e.openFd)

/-- The `while (buf < end)` loop of `getLastNumberInBuffer`, with `buf` the
offset of the cursor and `len` the original length.  One unit of fuel is spent
per test of the loop condition; `none` when the fuel runs out or a string
operation finds no terminator within `len + 1` bytes. -/
def scanLoop (len : Nat) : Nat → Mem → Nat → Int → Option Int
  | 0, _, _, _ => none
  | fuel + 1, mem, buf, num =>
    if buf < len then
      match cstr mem (len + 1) buf with
      | none => none
      | some s =>
        let p := match strchr s 10 with
          | some i => buf + i
          | none => buf + len - 1
        let mem1 := mem.write p 0
        match cstr mem1 (len + 1) buf with
        | none => none
        | some tok =>
          let r := strtol tok
          let endptr := buf + r.2
          let num1 := if endptr = p then r.1 else num
          scanLoop len fuel mem1 (p + 1) num1
    else some num

/-- `getLastNumberInBuffer(buf, len)` on the memory `mem` that holds the buffer. -/
def getLastNumberInBuffer (mem : Mem) (len : Nat) : Option Int :=
  scanLoop len (len + 1) (mem.write len 0) 0 (-1)

/-! ## The token scan, one iteration at a time -/

/-- One execution of the body of the `while (buf < end)` loop of
`getLastNumberInBuffer`: the memory, the cursor `buf` and `num` afterwards. -/
def scanStep (len : Nat) (mem : Mem) (buf : Nat) (num : Int) : Option (Mem × Nat × Int) :=
  match cstr mem (len + 1) buf with
  | none => none
  | some s =>
    let p := match strchr s 10 with
      | some i => buf + i
      | none => buf + len - 1
    let mem1 := mem.write p 0
    match cstr mem1 (len + 1) buf with
    | none => none
    | some tok =>
      let r := strtol tok
      let endptr := buf + r.2
      some (mem1, p + 1, if endptr = p then r.1 else num)

/-- The loop of `getLastNumberInBuffer` with a count of the executions of its
body: the value of `num` at exit and the number of iterations made. -/
def scanRun (len : Nat) : Nat → Mem → Nat → Int → Option (Int × Nat)
  | 0, _, _, _ => none
  | fuel + 1, mem, buf, num =>
    if buf < len then
      match scanStep len mem buf num with
      | none => none
      | some st => (scanRun len fuel st.1 st.2.1 st.2.2).map (fun r => (r.1, r.2 + 1))
    else some (num, 0)

/-- Size of the array `char buf[1024]` that `getNewPetExpiration` reads into. -/
def bufSize : Nat := 1024

/-- The offsets of the stores `*p = '\0'` made by the loop of
`getLastNumberInBuffer`, in program order (`p` is one less than the cursor that
the iteration leaves). -/
def scanStores (len : Nat) : Nat → Mem → Nat → Int → List Nat
  | 0, _, _, _ => []
  | fuel + 1, mem, buf, num =>
    if buf < len then
      match scanStep len mem buf num with
      | none => []
      | some st => (st.2.1 - 1) :: scanStores len fuel st.1 st.2.1 st.2.2
    else []

/-- The offsets of all stores of `getLastNumberInBuffer(buf, len)`: the
terminator `buf[len] = '\0'`, then the stores of the loop. -/
def storesOf (mem : Mem) (len : Nat) : List Nat :=
  len :: scanStores len (len + 1) (mem.write len 0) 0 (-1)

/-- Every store of `getLastNumberInBuffer(buf, len)` lands in the memory of the
caller's buffer: in the 1024 bytes of the array or, at the latest, on the
terminator position `buf[len]` (`read` returns at most 1024, so this position is
at most the byte next to the array).  A store further out hits other memory of
the process, and the call has no defined result. -/
def storesInBuffer (mem : Mem) (len : Nat) : Bool :=
  (storesOf mem len).all (fun p => decide (p < bufSize) || decide (p ≤ len))

/-- `isFifoReadyToRead(fd, timeout)`, given the result of its `select` call. -/
def isFifoReadyToRead (fd : Int) (timeout : Timeval) (selectRet : Int) : List Event × Int :=
  ([Event.select (fd + 1) timeout], if selectRet > 0 then 1 else 0)

/-- Inputs that one call of `getNewPetExpiration` takes from its environment. -/
structure PetEnv where
  /-- clock reading of `isExpired` inside `getLesserTimeout` -/
  ct1 : Timeval
  /-- clock reading of `timeLeft` inside `getLesserTimeout` -/
  ct2 : Timeval
  /-- result of `select` -/
  selectRet : Int
  /-- result of `read` -/
  readLen : Int
  /-- memory of `buf` after `read` -/
  readBuf : Mem
  /-- results for `createAndOpenPetForReading` -/
  fifo : FifoEnv
  /-- clock reading of `timeInNSeconds` -/
  ct3 : Timeval

/-- What `getNewPetExpiration` leaves behind: the returned deadline, the
descriptor stored in `*fd`, and the system calls issued. -/
structure PetResult where
  expiration : Timeval
  fd : Int
  events : List Event
  deriving DecidableEq, Repr

/-- The call of `getNewPetExpiration` with these inputs parses a chunk of fewer
than 1024 bytes with every store inside `buf`, or does not reach the parser. -/
def PetEnv.parseInBounds (env : PetEnv) : Prop :=
  env.selectRet ≤ 0 ∨ env.readLen ≤ 0 ∨
    (env.readLen < 1024 ∧ storesInBuffer env.readBuf env.readLen.toNat = true)

instance (env : PetEnv) : Decidable env.parseInBounds := by
  unfold PetEnv.parseInBounds; infer_instance

/-- `getNewPetExpiration(&fd, interval, timeout, expiration)`.  The result is
`none` when the call has no defined result: a store of `getLastNumberInBuffer`
lands outside the memory of `buf` (or the scan yields no number). -/
def getNewPetExpiration (env : PetEnv) (fd : Int) (interval timeout : Int)
    (expiration : Timeval) : Option PetResult :=
  let ready := isFifoReadyToRead fd (getLesserTimeout interval expiration env.ct1 env.ct2)
    env.selectRet
  if ready.2 = 0 then
    some ⟨expiration, fd, ready.1⟩
  else
    let len := env.readLen
    if len ≤ 0 then
      let fifo := createAndOpenPetForReading env.fifo
      some ⟨expiration, fifo.2, ready.1 ++ [Event.read fd, Event.close fd] ++ fifo.1⟩
    else if storesInBuffer env.readBuf len.toNat = false then
      none
    else
      match getLastNumberInBuffer env.readBuf len.toNat with
      | none => none
      | some newPetTimeout =>
        if newPetTimeout ≥ 0 then
          some ⟨timeInNSeconds (wrapInt newPetTimeout) env.ct3, fd, ready.1 ++ [Event.read fd]⟩
        else
          some ⟨timeInNSeconds timeout env.ct3, fd, ready.1 ++ [Event.read fd]⟩

/-! ## Watchdog device -/

/-- Answers of the watchdog driver to the `ioctl` calls of `setWatchdogTimeout`. -/
structure Driver where
  /-- result of `ioctl(fd, WDIOC_SETTIMEOUT, &timeout)` -/
  setRet : Int
  /-- result of `ioctl(fd, WDIOC_GETTIMEOUT, &timeout)` -/
  getRet : Int
  /-- value of `timeout` after a successful `WDIOC_GETTIMEOUT` -/
  getTimeout : Int
  deriving DecidableEq, Repr

/-- `setWatchdogTimeout(fd, interval, margin)`: the `ioctl` calls issued and the
interval returned. -/
def setWatchdogTimeout (drv : Driver) (fd interval margin : Int) : List Event × Int :=
  let timeout := wrapInt (interval + margin)
  if drv.setRet ≠ 0 then
    if drv.getRet ≠ 0 then
      ([Event.ioctlSetTimeout fd timeout, Event.ioctlGetTimeout fd], interval)
    else
      let timeout1 := drv.getTimeout
      let interval1 := if timeout1 > margin then wrapInt (timeout1 - margin) else 1
      ([Event.ioctlSetTimeout fd timeout, Event.ioctlGetTimeout fd], interval1)
  else
    ([Event.ioctlSetTimeout fd timeout], interval)

/-- `pet(fd)`: one `write` of one byte when the descriptor is non-negative. -/
def pet (fd : Int) : List Event :=
  if fd ≥ 0 then [Event.write fd] else []

/-! ## Arguments, setup and main -/

/-- The variables of `main` that `handleArguments` may overwrite. -/
structure Settings where
  interval : Int
  margin : Int
  petExpiration : Timeval
  deriving DecidableEq, Repr

/-- `handleArguments(argc, argv, &interval, &margin, &petExpiration)`, where
`args` lists `atoi(argv[1])`, `atoi(argv[2])`, ... and `ct` is the clock reading
of the `timeInNSeconds` call. -/
def handleArguments (args : List Int) (ct : Timeval) (s : Settings) : Settings :=
  let s1 := match args.get? 0 with
    | some a => { s with interval := a }
    | none => s
  let s2 := match args.get? 1 with
    | some a => { s1 with margin := a }
    | none => s1
  match args.get? 2 with
  | some a => { s2 with petExpiration := timeInNSeconds a ct }
  | none => s2

/-- Inputs that the setup part of `main` takes from its environment. -/
structure MainEnv where
  /-- result of `testMode()` -/
  isTestMode : Bool
  /-- the values `atoi(argv[1])`, `atoi(argv[2])`, ... -/
  args : List Int
  /-- clock reading of `timeInNSeconds(30)` -/
  ctInit : Timeval
  /-- clock reading of `timeInNSeconds` in `handleArguments` -/
  ctArgs : Timeval
  /-- results for the first `createAndOpenPetForReading` -/
  fifo : FifoEnv
  /-- result of `open` in `openWatchdogForWriting` -/
  watchdogFd : Int
  /-- answers of the watchdog driver -/
  driver : Driver
  deriving DecidableEq, Repr

/-- The local variables of `main` while the event loop runs. -/
structure Daemon where
  isTestMode : Bool
  timeout : Int
  interval : Int
  margin : Int
  petFd : Int
  watchdogFd : Int
  petExpiration : Timeval
  deriving DecidableEq, Repr

/-- The part of `main` before the event loop: the system calls issued, and either
the exit status of an early `return` or the variables at loop entry. -/
def startup (env : MainEnv) : List Event × Except Int Daemon :=
  let s := handleArguments env.args env.ctArgs ⟨10, 20, timeInNSeconds 30 env.ctInit⟩
  let timeout := wrapInt (s.interval + s.margin)
  let fifo := createAndOpenPetForReading env.fifo
  if ¬ env.isTestMode then
    if env.watchdogFd < 0 then
      (fifo.1 ++ [Event.openWatchdog], Except.error 1)
    else
      let r := setWatchdogTimeout env.driver env.watchdogFd s.interval s.margin
      (fifo.1 ++ [Event.openWatchdog] ++ r.1,
        Except.ok ⟨env.isTestMode, timeout, r.2, s.margin, fifo.2, env.watchdogFd, s.petExpiration⟩)
  else
    (fifo.1, Except.ok ⟨env.isTestMode, timeout, s.interval, s.margin, fifo.2, -1, s.petExpiration⟩)

/-- Inputs that one iteration of the event loop takes from its environment. -/
structure IterEnv where
  /-- value of `continueRunning` when the loop condition is tested -/
  continueRunning : Bool
  /-- clock reading of the `isExpired` test in `main` -/
  ctCheck : Timeval
  /-- inputs of the `getNewPetExpiration` call -/
  pet : PetEnv

/-- The body of the `while (continueRunning)` loop of `main`: the system calls
issued and the variables afterwards, `none` in their place after `break`.  The
whole result is `none` when the `getNewPetExpiration` call has no defined
result. -/
def loopBody (d : Daemon) (env : IterEnv) : Option (List Event × Option Daemon) :=
  if ¬ isExpired d.petExpiration env.ctCheck then
    match getNewPetExpiration env.pet d.petFd d.interval d.timeout d.petExpiration with
    | none => none
    | some r =>
      some (pet d.watchdogFd ++ r.events, some { d with petFd := r.fd, petExpiration := r.expiration })
  else if d.isTestMode then
    some ([], none)
  else
    match getNewPetExpiration env.pet d.petFd d.interval d.timeout d.petExpiration with
    | none => none
    | some r => some (r.events, some { d with petFd := r.fd, petExpiration := r.expiration })

/-- The event loop of `main` over the environments of successive iterations: the
system calls issued, and the variables when the loop is left (`none` in their
place while the loop is still running after the last given environment). -/
def eventLoop (d : Daemon) : List IterEnv → Option (List Event × Option Daemon)
  | [] => some ([], none)
  | env :: rest =>
    if env.continueRunning then
      match loopBody d env with
      | none => none
      | some (evs, none) => some (evs, some d)
      | some (evs, some d1) =>
        match eventLoop d1 rest with
        | none => none
        | some (evs1, r) => some (evs ++ evs1, r)
    else some ([], some d)

/-- The statements of `main` after the event loop: the system calls issued and
the exit status. -/
def shutdown (d : Daemon) : List Event × Int :=
  ([Event.close d.watchdogFd, Event.close d.petFd, Event.unlink], 0)

/-- The function `main`: the system calls issued and the exit status, `none` in
its place while the loop is still running after the last given environment. -/
def main (env : MainEnv) (iters : List IterEnv) : Option (List Event × Option Int) :=
  match startup env with
  | (evs, Except.error status) => some (evs, some status)
  | (evs, Except.ok d) =>
    match eventLoop d iters with
    | none => none
    | some (evs1, none) => some (evs ++ evs1, none)
    | some (evs1, some d1) => some (evs ++ evs1 ++ (shutdown d1).1, some (shutdown d1).2)

/-- The event is a `select` system call (the wait on the control channel). -/
def Event.isSelect : Event → Bool
  | Event.select _ _ => true
  | _ => false

/-! ## Clock utilities: properties -/

theorem timercmpLt_iff (a b : Timeval) (ha : a.normalized) (hb : b.normalized) :
    timercmpLt a b = true ↔ a.toMicros < b.toMicros := by
  unfold Timeval.normalized at ha hb
  unfold timercmpLt Timeval.toMicros
  split <;> simp <;> omega

theorem timersub_toMicros (a b : Timeval) :
    (timersub a b).toMicros = a.toMicros - b.toMicros := by
  unfold timersub Timeval.toMicros
  simp only
  split <;> simp <;> ring

theorem timersub_normalized (a b : Timeval) (ha : a.normalized) (hb : b.normalized) :
    (timersub a b).normalized := by
  unfold Timeval.normalized at *
  unfold timersub
  simp only
  split <;> simp <;> omega

theorem timeradd_toMicros (a b : Timeval) :
    (timeradd a b).toMicros = a.toMicros + b.toMicros := by
  unfold timeradd Timeval.toMicros
  simp only
  split <;> simp <;> ring

theorem timeInNSeconds_toMicros (n : Int) (ct : Timeval) :
    (timeInNSeconds n ct).toMicros = ct.toMicros + n * 1000000 := by
  unfold timeInNSeconds
  rw [timeradd_toMicros]
  simp [Timeval.toMicros, timerclear]

theorem timeInNSeconds_normalized (n : Int) (ct : Timeval) (h : ct.normalized) :
    (timeInNSeconds n ct).normalized := by
  unfold Timeval.normalized at *
  unfold timeInNSeconds timeradd timerclear
  simp only
  split <;> simp <;> omega

theorem getLesserTimeout_of_not_expired (timeout : Int) (expiration ct1 ct2 : Timeval)
    (h : isExpired expiration ct1 = false) :
    getLesserTimeout timeout expiration ct1 ct2 =
      if timercmpLt ⟨timeout, 0⟩ (timersub expiration ct2) = true then ⟨timeout, 0⟩
      else timersub expiration ct2 := by
  simp [getLesserTimeout, h, timeLeft, timerclear]

/-- C1 (counterexample): with interval 10 and a deadline five seconds in the past
the deadline is expired, yet `getLesserTimeout` returns ten seconds, not zero. -/
theorem getLesserTimeout_expired_nonzero :
    isExpired ⟨0, 0⟩ ⟨5, 0⟩ = true ∧
      getLesserTimeout 10 ⟨0, 0⟩ ⟨5, 0⟩ ⟨5, 0⟩ = ⟨10, 0⟩ ∧
      getLesserTimeout 10 ⟨0, 0⟩ ⟨5, 0⟩ ⟨5, 0⟩ ≠ ⟨0, 0⟩ := by
  decide

/-- C1 (amended): for every interval and every deadline that is expired at the
clock reading of the expiry test, `getLesserTimeout` returns the whole interval
(`tv_sec = interval`, `tv_usec = 0`), whatever the second clock reading is. -/
theorem getLesserTimeout_expired (interval : Int) (expiration ct1 ct2 : Timeval)
    (h : isExpired expiration ct1 = true) :
    getLesserTimeout interval expiration ct1 ct2 = ⟨interval, 0⟩ := by
  simp [getLesserTimeout, h, timerclear]

/-- C1 (witness): the amended statement at interval 10, deadline 0 s, clock 5 s. -/
theorem getLesserTimeout_expired_witness :
    isExpired ⟨0, 0⟩ ⟨5, 0⟩ = true ∧ getLesserTimeout 10 ⟨0, 0⟩ ⟨5, 0⟩ ⟨7, 0⟩ = ⟨10, 0⟩ :=
  ⟨by decide, getLesserTimeout_expired 10 ⟨0, 0⟩ ⟨5, 0⟩ ⟨7, 0⟩ (by decide)⟩

/-- C7: for every interval `≥ 0` and every normalised deadline that is not expired
at the normalised clock reading `now` (used for both clock reads),
`getLesserTimeout` returns the normalised timeval whose duration is exactly
`min(interval seconds, deadline - now)`, and that duration is `≥ 0`. -/
theorem getLesserTimeout_not_expired (interval : Int) (deadline now : Timeval)
    (hi : 0 ≤ interval) (hd : deadline.normalized) (hn : now.normalized)
    (hne : isExpired deadline now = false) :
    (getLesserTimeout interval deadline now now).normalized ∧
      (getLesserTimeout interval deadline now now).toMicros
        = min (interval * 1000000) (deadline.toMicros - now.toMicros) ∧
      0 ≤ (getLesserTimeout interval deadline now now).toMicros ∧
      0 ≤ (getLesserTimeout interval deadline now now).tv_sec := by
  have hsubn := timersub_normalized deadline now hd hn
  have hsubm := timersub_toMicros deadline now
  have htv : (⟨interval, 0⟩ : Timeval).normalized := by
    unfold Timeval.normalized; simp
  have hcmp := timercmpLt_iff ⟨interval, 0⟩ (timersub deadline now) htv hsubn
  have hexp : ¬ deadline.toMicros < now.toMicros := by
    intro hlt
    have := (timercmpLt_iff deadline now hd hn).2 hlt
    unfold isExpired at hne
    rw [this] at hne
    exact absurd hne (by decide)
  have htvm : (⟨interval, 0⟩ : Timeval).toMicros = interval * 1000000 := by
    simp [Timeval.toMicros]
  rw [getLesserTimeout_of_not_expired interval deadline now now hne]
  by_cases hc : timercmpLt ⟨interval, 0⟩ (timersub deadline now) = true
  · have hlt := hcmp.1 hc
    rw [if_pos hc]
    rw [htvm, hsubm] at hlt
    refine ⟨htv, ?_, ?_, hi⟩
    · rw [htvm, min_eq_left (le_of_lt hlt)]
    · rw [htvm]; positivity
  · have hge : ¬ (⟨interval, 0⟩ : Timeval).toMicros < (timersub deadline now).toMicros :=
      fun hlt => hc (hcmp.2 hlt)
    rw [if_neg hc]
    rw [htvm, hsubm] at hge
    have h0 : 0 ≤ (timersub deadline now).toMicros := by rw [hsubm]; omega
    refine ⟨hsubn, ?_, h0, ?_⟩
    · rw [hsubm, min_eq_right (not_lt.1 hge)]
    · unfold Timeval.normalized at hsubn
      unfold Timeval.toMicros at h0
      omega

/-- C7 (witness): interval 10 s, deadline 7.25 s, clock 3.5 s: the wait is 3.75 s. -/
theorem getLesserTimeout_not_expired_witness :
    (0 : Int) ≤ 10 ∧ (Timeval.mk 7 250000).normalized ∧ (Timeval.mk 3 500000).normalized ∧
      isExpired ⟨7, 250000⟩ ⟨3, 500000⟩ = false ∧
      (getLesserTimeout 10 ⟨7, 250000⟩ ⟨3, 500000⟩ ⟨3, 500000⟩).normalized ∧
      (getLesserTimeout 10 ⟨7, 250000⟩ ⟨3, 500000⟩ ⟨3, 500000⟩).toMicros
        = min (10 * 1000000) (Timeval.toMicros ⟨7, 250000⟩ - Timeval.toMicros ⟨3, 500000⟩) ∧
      0 ≤ (getLesserTimeout 10 ⟨7, 250000⟩ ⟨3, 500000⟩ ⟨3, 500000⟩).toMicros ∧
      0 ≤ (getLesserTimeout 10 ⟨7, 250000⟩ ⟨3, 500000⟩ ⟨3, 500000⟩).tv_sec :=
  ⟨by decide, by decide, by decide, by decide,
    getLesserTimeout_not_expired 10 ⟨7, 250000⟩ ⟨3, 500000⟩ (by decide) (by decide) (by decide)
      (by decide)⟩

/-- C8 (counterexample): a deadline equal to the clock reading satisfies
`deadline ≤ now`, yet `isExpired` is false. -/
theorem isExpired_at_deadline_false :
    (Timeval.mk 5 0).normalized ∧ Timeval.toMicros ⟨5, 0⟩ ≤ Timeval.toMicros ⟨5, 0⟩ ∧
      isExpired ⟨5, 0⟩ ⟨5, 0⟩ = false := by
  decide

/-- C8 (amended): for every pair of normalised timevals, `isExpired(deadline)` is
true if and only if `deadline < now` strictly; at `deadline = now` it is false. -/
theorem isExpired_iff_lt (deadline now : Timeval) (hd : deadline.normalized)
    (hn : now.normalized) :
    (isExpired deadline now = true ↔ deadline.toMicros < now.toMicros) ∧
      isExpired now now = false := by
  refine ⟨timercmpLt_iff deadline now hd hn, ?_⟩
  have := timercmpLt_iff now now hn hn
  unfold isExpired
  cases h : timercmpLt now now
  · rfl
  · exact absurd (this.1 h) (lt_irrefl _)

/-- C8 (witness): the amended statement at deadline 4.9 s, clock 5 s. -/
theorem isExpired_iff_lt_witness :
    (Timeval.mk 4 900000).normalized ∧ (Timeval.mk 5 0).normalized ∧
      (isExpired ⟨4, 900000⟩ ⟨5, 0⟩ = true ↔
        Timeval.toMicros ⟨4, 900000⟩ < Timeval.toMicros ⟨5, 0⟩) ∧
      isExpired ⟨5, 0⟩ ⟨5, 0⟩ = false :=
  ⟨by decide, by decide, isExpired_iff_lt ⟨4, 900000⟩ ⟨5, 0⟩ (by decide) (by decide)⟩

/-! ## Machine integers: properties -/

theorem wrapInt_of_isInt (x : Int) (h : isInt x) : wrapInt x = x := by
  unfold isInt INT_MIN INT_MAX at h
  unfold wrapInt
  omega

/-! ## The token scan returns -/

theorem cstr_isSome (m : Mem) (q : Nat) (hq : m q = 0) :
    ∀ (fuel p : Nat), p ≤ q → q < p + fuel → ∃ s, cstr m fuel p = some s := by
  intro fuel
  induction fuel with
  | zero => intro p h1 h2; omega
  | succ n ih =>
    intro p h1 h2
    unfold cstr
    by_cases hp : m p = 0
    · exact ⟨[], by simp [hp]⟩
    · have hne : p ≠ q := fun e => hp (e ▸ hq)
      obtain ⟨s, hs⟩ := ih (p + 1) (by omega) (by omega)
      exact ⟨m p :: s, by simp [hp, hs]⟩

theorem tokenEnd_ge (buf len : Nat) (o : Option Nat) (h : buf < len) :
    buf ≤ (match o with
      | some i => buf + i
      | none => buf + len - 1) := by
  cases o with
  | none => simp only; omega
  | some i => simp only; omega

theorem scanLoop_isSome (len : Nat) :
    ∀ (fuel : Nat) (mem : Mem) (buf : Nat) (num : Int),
      mem len = 0 → 1 ≤ fuel → len + 1 ≤ fuel + buf →
      ∃ r, scanLoop len fuel mem buf num = some r := by
  intro fuel
  induction fuel with
  | zero => intro mem buf num _ h1 _; omega
  | succ n ih =>
    intro mem buf num hz _ hf
    unfold scanLoop
    by_cases hlt : buf < len
    · rw [if_pos hlt]
      obtain ⟨s, hs⟩ := cstr_isSome mem len hz (len + 1) buf (by omega) (by omega)
      rw [hs]
      simp only
      have hpb := tokenEnd_ge buf len (strchr s 10) hlt
      generalize (match strchr s 10 with
          | some i => buf + i
          | none => buf + len - 1) = p at hpb ⊢
      have hz1 : (mem.write p 0) len = 0 := by
        unfold Mem.write
        by_cases e : len = p
        · simp [e]
        · simp [e, hz]
      obtain ⟨tok, ht⟩ := cstr_isSome (mem.write p 0) len hz1 (len + 1) buf (by omega) (by omega)
      rw [ht]
      simp only
      exact ih (mem.write p 0) (p + 1) _ hz1 (by omega) (by omega)
    · rw [if_neg hlt]
      exact ⟨num, rfl⟩

/-- On every memory and every length `getLastNumberInBuffer` returns a number. -/
theorem getLastNumberInBuffer_isSome (mem : Mem) (len : Nat) :
    ∃ r, getLastNumberInBuffer mem len = some r := by
  unfold getLastNumberInBuffer
  apply scanLoop_isSome
  · simp [Mem.write]
  · omega
  · omega

/-- The call returns whenever it does not reach the parser or every store of the
parser stays inside `buf`. -/
theorem getNewPetExpiration_isSome (env : PetEnv) (fd interval timeout : Int)
    (expiration : Timeval) (hb : env.parseInBounds) :
    ∃ r, getNewPetExpiration env fd interval timeout expiration = some r := by
  unfold getNewPetExpiration
  simp only
  split
  · exact ⟨_, rfl⟩
  · rename_i h1
    split
    · exact ⟨_, rfl⟩
    · rename_i h2
      have hs : storesInBuffer env.readBuf env.readLen.toNat = true := by
        rcases hb with h | h | h
        · exfalso
          apply h1
          have : ¬ env.selectRet > 0 := by omega
          simp [isFifoReadyToRead, this]
        · exact absurd h h2
        · exact h.2
      rw [if_neg (by simp [hs])]
      obtain ⟨n, hn⟩ := getLastNumberInBuffer_isSome env.readBuf env.readLen.toNat
      rw [hn]
      simp only
      split <;> exact ⟨_, rfl⟩

theorem createAndOpenPetForReading_no_write (e : FifoEnv) :
    (createAndOpenPetForReading e).1.countP Event.isWrite = 0 := by
  unfold createAndOpenPetForReading
  split
  · rfl
  · split <;> rfl

theorem getNewPetExpiration_no_write (env : PetEnv) (fd interval timeout : Int)
    (expiration : Timeval) (r : PetResult)
    (h : getNewPetExpiration env fd interval timeout expiration = some r) :
    r.events.countP Event.isWrite = 0 := by
  unfold getNewPetExpiration at h
  simp only at h
  split at h
  · simp only [Option.some.injEq] at h
    subst h
    rfl
  · split at h
    · simp only [Option.some.injEq] at h
      subst h
      simp [isFifoReadyToRead, Event.isWrite, createAndOpenPetForReading_no_write]
    · split at h
      · simp at h
      · split at h
        · simp at h
        · split at h <;>
          · simp only [Option.some.injEq] at h
            subst h
            rfl

/-! ## Watchdog device: properties -/

/-- C5: `setWatchdogTimeout` first requests `interval + margin` from the driver;
it returns `interval` unchanged when the driver accepts, and exactly
`max(T - margin, 1)` when the driver rejects the request and then reports its
enforced timeout `T` (when the driver reports nothing the interval stays).  The
`int` sum and difference are taken to be representable. -/
theorem setWatchdogTimeout_negotiation (drv : Driver) (fd interval margin : Int)
    (hsum : isInt (interval + margin)) (hdiff : drv.getTimeout - margin ≤ INT_MAX) :
    (setWatchdogTimeout drv fd interval margin).1.head?
        = some (Event.ioctlSetTimeout fd (interval + margin)) ∧
      (setWatchdogTimeout drv fd interval margin).2
        = (if drv.setRet = 0 then interval
           else if drv.getRet = 0 then max (drv.getTimeout - margin) 1
           else interval) := by
  have hw := wrapInt_of_isInt _ hsum
  refine ⟨?_, ?_⟩
  · unfold setWatchdogTimeout
    simp only [hw]
    split
    · split <;> rfl
    · rfl
  · by_cases h1 : drv.setRet = 0
    · simp [setWatchdogTimeout, h1]
    · by_cases h2 : drv.getRet = 0
      · simp only [setWatchdogTimeout, h1, h2, ne_eq, not_false_eq_true, if_true,
          not_true_eq_false, if_false]
        by_cases hgt : drv.getTimeout > margin
        · have hr : isInt (drv.getTimeout - margin) := by
            unfold isInt INT_MIN
            exact ⟨by omega, hdiff⟩
          rw [if_pos hgt, wrapInt_of_isInt _ hr]
          exact (max_eq_left (by omega)).symm
        · rw [if_neg hgt]
          exact (max_eq_right (by omega)).symm
      · simp [setWatchdogTimeout, h1, h2]

/-- C5 (witness): interval 10, margin 20, the request 30 is rejected and the
driver reports 15: the returned interval is `max(15 - 20, 1) = 1`. -/
theorem setWatchdogTimeout_negotiation_witness :
    isInt (10 + 20) ∧ (15 : Int) - 20 ≤ INT_MAX ∧
      (setWatchdogTimeout ⟨-1, 0, 15⟩ 3 10 20).1.head?
        = some (Event.ioctlSetTimeout 3 (10 + 20)) ∧
      (setWatchdogTimeout ⟨-1, 0, 15⟩ 3 10 20).2
        = (if (-1 : Int) = 0 then 10 else if (0 : Int) = 0 then max (15 - 20) 1 else 10) :=
  ⟨by decide, by decide, setWatchdogTimeout_negotiation ⟨-1, 0, 15⟩ 3 10 20 (by decide) (by decide)⟩

/-! ## Setup and event loop: properties -/

/-- C6 (counterexample): interval 10, margin 20, the driver rejects 30 and reports
15.  The interval becomes 1 while the timeout kept by `main` stays 30, which is
not the adjusted interval plus the margin (21). -/
theorem startup_timeout_stale :
    (startup ⟨false, [10, 20], ⟨100, 0⟩, ⟨100, 0⟩, ⟨0, 4⟩, 3, ⟨-1, 0, 15⟩⟩).2
        = Except.ok ⟨false, 30, 1, 20, 4, 3, ⟨130, 0⟩⟩ ∧
      (30 : Int) ≠ 1 + 20 := by
  constructor
  · rfl
  · decide

/-- C6 (amended): the timeout that `main` keeps for the event loop is the sum of
the interval and the margin as they stand before the negotiation with the
driver; it is never recomputed.  Outside test mode only the interval is replaced
by the value `setWatchdogTimeout` returns; the margin is kept. -/
theorem startup_timeout_fixed (env : MainEnv) (d : Daemon)
    (h : (startup env).2 = Except.ok d) :
    d.timeout = wrapInt
        ((handleArguments env.args env.ctArgs ⟨10, 20, timeInNSeconds 30 env.ctInit⟩).interval +
          (handleArguments env.args env.ctArgs ⟨10, 20, timeInNSeconds 30 env.ctInit⟩).margin) ∧
      d.margin = (handleArguments env.args env.ctArgs ⟨10, 20, timeInNSeconds 30 env.ctInit⟩).margin ∧
      (env.isTestMode = false →
        d.interval = (setWatchdogTimeout env.driver env.watchdogFd
          (handleArguments env.args env.ctArgs ⟨10, 20, timeInNSeconds 30 env.ctInit⟩).interval
          (handleArguments env.args env.ctArgs ⟨10, 20, timeInNSeconds 30 env.ctInit⟩).margin).2) := by
  unfold startup at h
  simp only at h
  split at h
  · split at h
    · simp at h
    · simp only [Except.ok.injEq] at h
      subst h
      exact ⟨rfl, rfl, fun _ => rfl⟩
  · rename_i ht
    simp only [Except.ok.injEq] at h
    subst h
    refine ⟨rfl, rfl, fun hf => ?_⟩
    simp [hf] at ht

/-- C6 (witness): the amended statement for interval 10, margin 20 and a driver
that rejects 30 and reports 15: the timeout stays 30 while the interval is 1. -/
theorem startup_timeout_fixed_witness :
    (startup ⟨false, [10, 20], ⟨100, 0⟩, ⟨100, 0⟩, ⟨0, 4⟩, 3, ⟨-1, 0, 15⟩⟩).2
        = Except.ok ⟨false, 30, 1, 20, 4, 3, ⟨130, 0⟩⟩ ∧
      (30 : Int) = wrapInt (10 + 20) ∧ (20 : Int) = 20 ∧
      ((false : Bool) = false → (1 : Int) = (setWatchdogTimeout ⟨-1, 0, 15⟩ 3 10 20).2) :=
  ⟨by rfl, startup_timeout_fixed ⟨false, [10, 20], ⟨100, 0⟩, ⟨100, 0⟩, ⟨0, 4⟩, 3, ⟨-1, 0, 15⟩⟩
    ⟨false, 30, 1, 20, 4, 3, ⟨130, 0⟩⟩ (by rfl)⟩

/-- C10: `pet` issues one write when the device descriptor is non-negative and
none otherwise.  Every iteration of the event loop that runs to its end issues
exactly one write when the deadline is not expired at the iteration's expiry
check and the device descriptor is non-negative, and none otherwise: at most one
in any case, and none for an expired deadline.  An iteration runs to its end if
its `getNewPetExpiration` call does not parse or parses with every store inside
`buf`. -/
theorem loopBody_pet_writes (d : Daemon) (env : IterEnv) :
    (pet d.watchdogFd).countP Event.isWrite = (if 0 ≤ d.watchdogFd then 1 else 0) ∧
      (∀ evs next, loopBody d env = some (evs, next) →
        evs.countP Event.isWrite =
          (if isExpired d.petExpiration env.ctCheck = false ∧ 0 ≤ d.watchdogFd then 1 else 0) ∧
        evs.countP Event.isWrite ≤ 1) ∧
      (env.pet.parseInBounds → ∃ evs next, loopBody d env = some (evs, next)) := by
  have hpet : (pet d.watchdogFd).countP Event.isWrite = (if 0 ≤ d.watchdogFd then 1 else 0) := by
    by_cases hfd : 0 ≤ d.watchdogFd
    · simp [pet, hfd, Event.isWrite]
    · simp [pet, hfd]
  refine ⟨hpet, ?_, ?_⟩
  · intro evs next h
    unfold loopBody at h
    cases hx : isExpired d.petExpiration env.ctCheck
    · simp only [hx, Bool.false_eq_true, not_false_eq_true, if_true] at h
      cases hr : getNewPetExpiration env.pet d.petFd d.interval d.timeout d.petExpiration with
      | none => simp [hr] at h
      | some r =>
        have hev := getNewPetExpiration_no_write env.pet d.petFd d.interval d.timeout
          d.petExpiration r hr
        simp only [hr, Option.some.injEq, Prod.mk.injEq] at h
        rw [← h.1, List.countP_append, hev, hpet]
        by_cases hfd : 0 ≤ d.watchdogFd
        · simp [hfd]
        · simp [hfd]
    · simp only [hx, not_true_eq_false, if_false] at h
      by_cases ht : d.isTestMode = true
      · simp only [ht, if_true, Option.some.injEq, Prod.mk.injEq] at h
        rw [← h.1]
        simp
      · simp only [ht, Bool.false_eq_true, if_false] at h
        cases hr : getNewPetExpiration env.pet d.petFd d.interval d.timeout d.petExpiration with
        | none => simp [hr] at h
        | some r =>
          have hev := getNewPetExpiration_no_write env.pet d.petFd d.interval d.timeout
            d.petExpiration r hr
          simp only [hr, Option.some.injEq, Prod.mk.injEq] at h
          rw [← h.1, hev]
          simp
  · intro hb
    obtain ⟨r, hr⟩ := getNewPetExpiration_isSome env.pet d.petFd d.interval d.timeout
      d.petExpiration hb
    unfold loopBody
    simp only [hr]
    split
    · exact ⟨_, _, rfl⟩
    · split <;> exact ⟨_, _, rfl⟩

/-- C10 (witness): an iteration with a deadline 20 s ahead, device descriptor 3
and the chunk `"15\n"` on the control channel runs to its end and issues one
write. -/
theorem loopBody_pet_writes_witness :
    PetEnv.parseInBounds ⟨⟨100, 0⟩, ⟨100, 0⟩, 1, 3, Mem.ofString "15\n", ⟨0, 7⟩, ⟨100, 0⟩⟩ ∧
      ∃ evs next,
        loopBody ⟨false, 30, 10, 20, 4, 3, ⟨120, 0⟩⟩
          ⟨true, ⟨100, 0⟩, ⟨⟨100, 0⟩, ⟨100, 0⟩, 1, 3, Mem.ofString "15\n", ⟨0, 7⟩, ⟨100, 0⟩⟩⟩
          = some (evs, next) ∧
        evs.countP Event.isWrite = 1 := by
  have h := loopBody_pet_writes ⟨false, 30, 10, 20, 4, 3, ⟨120, 0⟩⟩
    ⟨true, ⟨100, 0⟩, ⟨⟨100, 0⟩, ⟨100, 0⟩, 1, 3, Mem.ofString "15\n", ⟨0, 7⟩, ⟨100, 0⟩⟩⟩
  obtain ⟨evs, next, he⟩ := h.2.2 (by decide)
  exact ⟨by decide, evs, next, he, (h.2.1 evs next he).1.trans (by decide)⟩

/-! ## The token scan on newline-terminated lines -/

theorem holds_append (m : Mem) (a b : List Nat) :
    ∀ p, Mem.holds m p (a ++ b) ↔ Mem.holds m p a ∧ Mem.holds m (p + a.length) b := by
  induction a with
  | nil => intro p; simp [Mem.holds]
  | cons x xs ih =>
    intro p
    show (m p = x ∧ Mem.holds m (p + 1) (xs ++ b)) ↔
      (m p = x ∧ Mem.holds m (p + 1) xs) ∧ Mem.holds m (p + (xs.length + 1)) b
    have e : p + 1 + xs.length = p + (xs.length + 1) := by omega
    rw [ih (p + 1), and_assoc, e]

theorem holds_write (m : Mem) (q v : Nat) (bs : List Nat) :
    ∀ p, (q < p ∨ p + bs.length ≤ q) → Mem.holds m p bs → Mem.holds (m.write q v) p bs := by
  induction bs with
  | nil => intro p _ _; trivial
  | cons x xs ih =>
    intro p hq h
    simp only [List.length_cons] at hq
    simp only [Mem.holds] at h ⊢
    refine ⟨?_, ih (p + 1) (by omega) h.2⟩
    have hne : p ≠ q := by omega
    simp [Mem.write, hne, h.1]

theorem holds_ofBytes (pre bs : List Nat) :
    Mem.holds (Mem.ofBytes (pre ++ bs)) pre.length bs := by
  induction bs generalizing pre with
  | nil => trivial
  | cons x xs ih =>
    refine ⟨?_, ?_⟩
    · simp only [Mem.ofBytes, List.getD_eq_getElem?_getD]
      rw [List.getElem?_append_right (le_refl _)]
      simp
    · have := ih (pre ++ [x])
      simpa using this

theorem cstr_eq_of_holds (m : Mem) (s : List Nat) (hs : ∀ c ∈ s, c ≠ 0) :
    ∀ (fuel p : Nat), Mem.holds m p s → m (p + s.length) = 0 → s.length < fuel →
      cstr m fuel p = some s := by
  induction s with
  | nil =>
    intro fuel p _ hz hf
    cases fuel with
    | zero => exact absurd hf (Nat.not_succ_le_zero _)
    | succ n => simpa [cstr] using hz
  | cons x xs ih =>
    intro fuel p hh hz hf
    cases fuel with
    | zero => exact absurd hf (Nat.not_succ_le_zero _)
    | succ n =>
      simp only [Mem.holds] at hh
      have hx : x ≠ 0 := hs x (List.mem_cons_self _ _)
      have hrec := ih (fun c hc => hs c (List.mem_cons_of_mem _ hc)) n (p + 1) hh.2
        (by simpa [Nat.add_assoc, Nat.add_comm 1] using hz)
        (by simpa using hf)
      simp [cstr, hh.1, hx, hrec]

theorem strchr_newline (t rest : List Nat) (ht : ∀ c ∈ t, c ≠ 10) :
    strchr (t ++ 10 :: rest) 10 = some t.length := by
  induction t with
  | nil => simp [strchr]
  | cons x xs ih =>
    have hx : x ≠ 10 := ht x (List.mem_cons_self _ _)
    simp [strchr, hx, ih (fun c hc => ht c (List.mem_cons_of_mem _ hc))]

theorem joinLines_no_nul (toks : List (List Nat)) (h : ∀ t ∈ toks, isToken t) :
    ∀ c ∈ joinLines toks, c ≠ 0 := by
  induction toks with
  | nil => intro c hc; simp [joinLines] at hc
  | cons t ts ih =>
    intro c hc
    simp only [joinLines, List.mem_append, List.mem_cons] at hc
    rcases hc with hc | hc | hc
    · exact (h t (List.mem_cons_self _ _) c hc).1
    · omega
    · exact ih (fun t ht => h t (List.mem_cons_of_mem _ ht)) c hc

theorem length_le_joinLines (toks : List (List Nat)) :
    toks.length ≤ (joinLines toks).length := by
  induction toks with
  | nil => simp
  | cons t ts ih => simp only [joinLines, List.length_append, List.length_cons]; omega

/-- The scan over a chunk of newline-terminated lines updates `num` once per
line, in order, taking each line that `strtol` consumes entirely. -/
theorem scanLoop_lines (len : Nat) (toks : List (List Nat)) :
    ∀ (fuel : Nat) (mem : Mem) (buf : Nat) (num : Int),
      (∀ t ∈ toks, isToken t) → Mem.holds mem buf (joinLines toks) →
      buf + (joinLines toks).length = len → mem len = 0 → toks.length + 1 ≤ fuel →
      scanLoop len fuel mem buf num
        = some (toks.foldl (fun n t => if (strtol t).2 = t.length then (strtol t).1 else n) num) := by
  induction toks with
  | nil =>
    intro fuel mem buf num _ _ hlen _ hf
    cases fuel with
    | zero => exact absurd hf (Nat.not_succ_le_zero _)
    | succ n =>
      simp only [joinLines, List.length_nil, Nat.add_zero] at hlen
      simp [scanLoop, hlen]
  | cons t ts ih =>
    intro fuel mem buf num htok hh hlen hz hf
    cases fuel with
    | zero => exact absurd hf (Nat.not_succ_le_zero _)
    | succ n =>
      have ht : isToken t := htok t (List.mem_cons_self _ _)
      have hts : ∀ u ∈ ts, isToken u := fun u hu => htok u (List.mem_cons_of_mem _ hu)
      simp only [joinLines, List.length_append, List.length_cons] at hlen
      have hlt : buf < len := by omega
      have hs : cstr mem (len + 1) buf = some (t ++ 10 :: joinLines ts) := by
        apply cstr_eq_of_holds mem _ (joinLines_no_nul (t :: ts) htok) (len + 1) buf hh
        · simp only [joinLines, List.length_append, List.length_cons]
          have e : buf + (t.length + ((joinLines ts).length + 1)) = len := by omega
          rw [e]; exact hz
        · simp only [joinLines, List.length_append, List.length_cons]; omega
      have hh2 := (holds_append mem t (10 :: joinLines ts) buf).1 hh
      have hrest : Mem.holds mem (buf + t.length + 1) (joinLines ts) := hh2.2.2
      have htk : cstr (mem.write (buf + t.length) 0) (len + 1) buf = some t := by
        apply cstr_eq_of_holds _ t (fun c hc => (ht c hc).1) (len + 1) buf
        · exact holds_write mem _ 0 t buf (Or.inr (le_refl _)) hh2.1
        · simp [Mem.write]
        · omega
      have hz1 : (mem.write (buf + t.length) 0) len = 0 := by
        have hne : len ≠ buf + t.length := by omega
        simp [Mem.write, hne, hz]
      have hrec := ih n (mem.write (buf + t.length) 0) (buf + t.length + 1)
        (if (strtol t).2 = t.length then (strtol t).1 else num) hts
        (holds_write mem _ 0 _ _ (Or.inl (by omega)) hrest) (by omega) hz1 (by simpa using hf)
      unfold scanLoop
      rw [if_pos hlt, hs]
      simp only [strchr_newline t (joinLines ts) (fun c hc => (ht c hc).2), htk, List.foldl_cons]
      rw [← hrec]
      congr 1
      simp only [Nat.add_left_cancel_iff]

theorem getLastNumberInBuffer_lines (mem : Mem) (toks : List (List Nat))
    (htok : ∀ t ∈ toks, isToken t) (hh : Mem.holds mem 0 (joinLines toks)) :
    getLastNumberInBuffer mem (joinLines toks).length
      = some (toks.foldl (fun n t => if (strtol t).2 = t.length then (strtol t).1 else n) (-1)) := by
  unfold getLastNumberInBuffer
  apply scanLoop_lines _ toks _ _ 0 (-1) htok
  · exact holds_write mem _ 0 _ 0 (Or.inr (by omega)) hh
  · omega
  · simp [Mem.write]
  · exact Nat.succ_le_succ (length_le_joinLines toks)

theorem tokenValue_some (t : List Nat) (v : Int) (h : tokenValue t = some v) :
    (strtol t).2 = t.length ∧ (strtol t).1 = v := by
  unfold tokenValue at h
  split at h
  · rename_i hc
    exact ⟨hc.2, by simpa using h⟩
  · simp at h

theorem foldl_rejected (junk : List (List Nat))
    (h : ∀ t ∈ junk, t ≠ [] ∧ tokenValue t = none) (n : Int) :
    junk.foldl (fun n t => if (strtol t).2 = t.length then (strtol t).1 else n) n = n := by
  induction junk with
  | nil => rfl
  | cons t ts ih =>
    have ht := h t (List.mem_cons_self _ _)
    have hrej : ¬ (strtol t).2 = t.length := by
      intro hc
      have hn := ht.2
      unfold tokenValue at hn
      rw [if_pos ⟨ht.1, hc⟩] at hn
      simp at hn
    simp only [List.foldl_cons, if_neg hrej]
    exact ih (fun u hu => h u (List.mem_cons_of_mem _ hu))

theorem foldl_last_accepted (pre junk : List (List Nat)) (tok : List Nat) (v : Int)
    (hv : tokenValue tok = some v) (h : ∀ t ∈ junk, t ≠ [] ∧ tokenValue t = none) (n : Int) :
    (pre ++ tok :: junk).foldl
      (fun n t => if (strtol t).2 = t.length then (strtol t).1 else n) n = v := by
  obtain ⟨h1, h2⟩ := tokenValue_some tok v hv
  rw [List.foldl_append, List.foldl_cons, if_pos h1, h2]
  exact foldl_rejected junk h v

theorem joinLines_length_pos (pre junk : List (List Nat)) (tok : List Nat) :
    0 < (joinLines (pre ++ tok :: junk)).length := by
  have := length_le_joinLines (pre ++ tok :: junk)
  simp only [List.length_append, List.length_cons] at this
  omega

/-- One iteration of the scan on a newline-terminated line: the newline is
overwritten and the cursor moves behind it. -/
theorem scanStep_line (len : Nat) (mem : Mem) (buf : Nat) (num : Int) (t : List Nat)
    (ts : List (List Nat)) (htok : ∀ u ∈ t :: ts, isToken u)
    (hh : Mem.holds mem buf (joinLines (t :: ts)))
    (hlen : buf + (joinLines (t :: ts)).length = len) (hz : mem len = 0) :
    scanStep len mem buf num = some (mem.write (buf + t.length) 0, buf + t.length + 1,
      if (strtol t).2 = t.length then (strtol t).1 else num) := by
  have ht : isToken t := htok t (List.mem_cons_self _ _)
  simp only [joinLines, List.length_append, List.length_cons] at hlen
  have hs : cstr mem (len + 1) buf = some (t ++ 10 :: joinLines ts) := by
    apply cstr_eq_of_holds mem _ (joinLines_no_nul (t :: ts) htok) (len + 1) buf hh
    · simp only [joinLines, List.length_append, List.length_cons]
      have e : buf + (t.length + ((joinLines ts).length + 1)) = len := by omega
      rw [e]; exact hz
    · simp only [joinLines, List.length_append, List.length_cons]; omega
  have hh2 := (holds_append mem t (10 :: joinLines ts) buf).1 hh
  have htk : cstr (mem.write (buf + t.length) 0) (len + 1) buf = some t := by
    apply cstr_eq_of_holds _ t (fun c hc => (ht c hc).1) (len + 1) buf
    · exact holds_write mem _ 0 t buf (Or.inr (le_refl _)) hh2.1
    · simp [Mem.write]
    · omega
  unfold scanStep
  rw [hs]
  simp only [strchr_newline t (joinLines ts) (fun c hc => (ht c hc).2), htk,
    Nat.add_left_cancel_iff]

/-- On a chunk of newline-terminated lines every store of the loop lands on a
newline of the chunk. -/
theorem scanStores_lines (len : Nat) (toks : List (List Nat)) :
    ∀ (fuel : Nat) (mem : Mem) (buf : Nat) (num : Int),
      (∀ t ∈ toks, isToken t) → Mem.holds mem buf (joinLines toks) →
      buf + (joinLines toks).length = len → mem len = 0 →
      ∀ p ∈ scanStores len fuel mem buf num, p < len := by
  induction toks with
  | nil =>
    intro fuel mem buf num _ _ hlen _ p hp
    simp only [joinLines, List.length_nil, Nat.add_zero] at hlen
    cases fuel with
    | zero => simp [scanStores] at hp
    | succ n => simp [scanStores, hlen] at hp
  | cons t ts ih =>
    intro fuel mem buf num htok hh hlen hz p hp
    cases fuel with
    | zero => simp [scanStores] at hp
    | succ n =>
      have hstep := scanStep_line len mem buf num t ts htok hh hlen hz
      have hts : ∀ u ∈ ts, isToken u := fun u hu => htok u (List.mem_cons_of_mem _ hu)
      have hh2 := (holds_append mem t (10 :: joinLines ts) buf).1 hh
      have hrest : Mem.holds mem (buf + t.length + 1) (joinLines ts) := hh2.2.2
      simp only [joinLines, List.length_append, List.length_cons] at hlen
      have hlt : buf < len := by omega
      have hz1 : (mem.write (buf + t.length) 0) len = 0 := by
        have hne : len ≠ buf + t.length := by omega
        simp [Mem.write, hne, hz]
      unfold scanStores at hp
      rw [if_pos hlt, hstep] at hp
      simp only [Nat.add_sub_cancel, List.mem_cons] at hp
      rcases hp with hp | hp
      · omega
      · exact ih n (mem.write (buf + t.length) 0) (buf + t.length + 1) _ hts
          (holds_write mem _ 0 _ _ (Or.inl (by omega)) hrest) (by omega) hz1 p hp

theorem storesInBuffer_lines (mem : Mem) (toks : List (List Nat))
    (htok : ∀ t ∈ toks, isToken t) (hh : Mem.holds mem 0 (joinLines toks)) :
    storesInBuffer mem (joinLines toks).length = true := by
  have h := scanStores_lines (joinLines toks).length toks ((joinLines toks).length + 1)
    (mem.write (joinLines toks).length 0) 0 (-1) htok
    (holds_write mem _ 0 _ 0 (Or.inr (by omega)) hh) (by omega) (by simp [Mem.write])
  unfold storesInBuffer storesOf
  simp only [List.all_cons, le_refl, decide_True, Bool.or_true, Bool.true_and, List.all_eq_true,
    Bool.or_eq_true, decide_eq_true_eq]
  intro p hp
  exact Or.inr (le_of_lt (h p hp))

/-- The deadline `getNewPetExpiration` returns for a chunk of newline-terminated
lines whose last complete-integer line holds `v` and is followed only by
non-empty lines that do not parse. -/
theorem getNewPetExpiration_lines (env : PetEnv) (fd interval timeout : Int)
    (expiration : Timeval) (pre junk : List (List Nat)) (tok : List Nat) (v : Int)
    (hready : 0 < env.selectRet)
    (hlen : env.readLen = (joinLines (pre ++ tok :: junk)).length)
    (hbuf : Mem.holds env.readBuf 0 (joinLines (pre ++ tok :: junk)))
    (htoks : ∀ t ∈ pre ++ tok :: junk, isToken t)
    (hv : tokenValue tok = some v)
    (hjunk : ∀ t ∈ junk, t ≠ [] ∧ tokenValue t = none) :
    (getNewPetExpiration env fd interval timeout expiration).map PetResult.expiration
      = some (if 0 ≤ v then timeInNSeconds (wrapInt v) env.ct3
          else timeInNSeconds timeout env.ct3) := by
  have hpos := joinLines_length_pos pre junk tok
  have hnum := getLastNumberInBuffer_lines env.readBuf (pre ++ tok :: junk) htoks hbuf
  rw [foldl_last_accepted pre junk tok v hv hjunk] at hnum
  have hnat : env.readLen.toNat = (joinLines (pre ++ tok :: junk)).length := by
    rw [hlen]; simp
  have hl : ¬ env.readLen ≤ 0 := by rw [hlen]; omega
  have hst := storesInBuffer_lines env.readBuf (pre ++ tok :: junk) htoks hbuf
  unfold getNewPetExpiration
  simp only [isFifoReadyToRead, gt_iff_lt, hready, if_true, one_ne_zero, if_false, hl, hnat, hst,
    Bool.true_eq_false, hnum, ge_iff_le]
  split <;> rfl

/-- C9 (counterexample): for the chunk `"10\n-5\n"` with timeout 30 the returned
deadline is the clock reading plus 30 seconds (the liveness fallback), not the
clock reading plus 10 seconds. -/
theorem getNewPetExpiration_negative_not_ignored :
    (getNewPetExpiration ⟨⟨90, 0⟩, ⟨90, 0⟩, 1, 6, Mem.ofString "10\n-5\n", ⟨0, 4⟩, ⟨100, 0⟩⟩
        4 10 30 ⟨120, 0⟩).map PetResult.expiration = some (timeInNSeconds 30 ⟨100, 0⟩) ∧
      timeInNSeconds 30 ⟨100, 0⟩ ≠ timeInNSeconds 10 ⟨100, 0⟩ := by
  decide

/-- C9 (amended): for every delivered chunk of newline-terminated lines (without
NUL bytes) whose last line that parses as a complete integer holds `v` and is
followed only by non-empty unparsable lines, `getNewPetExpiration` returns the
clock reading plus `v` seconds when `0 ≤ v ≤ INT_MAX`, and the liveness fallback
(clock reading plus `timeout`) when `v` is negative: unparsable lines are
ignored, a negative integer is not. -/
theorem getNewPetExpiration_last_integer (env : PetEnv) (fd interval timeout : Int)
    (expiration : Timeval) (pre junk : List (List Nat)) (tok : List Nat) (v : Int)
    (hready : 0 < env.selectRet)
    (hlen : env.readLen = (joinLines (pre ++ tok :: junk)).length)
    (hbuf : Mem.holds env.readBuf 0 (joinLines (pre ++ tok :: junk)))
    (htoks : ∀ t ∈ pre ++ tok :: junk, isToken t)
    (hv : tokenValue tok = some v)
    (hjunk : ∀ t ∈ junk, t ≠ [] ∧ tokenValue t = none) :
    (0 ≤ v → v ≤ INT_MAX →
        (getNewPetExpiration env fd interval timeout expiration).map PetResult.expiration
          = some (timeInNSeconds v env.ct3)) ∧
      (v < 0 →
        (getNewPetExpiration env fd interval timeout expiration).map PetResult.expiration
          = some (timeInNSeconds timeout env.ct3)) := by
  have h := getNewPetExpiration_lines env fd interval timeout expiration pre junk tok v hready
    hlen hbuf htoks hv hjunk
  constructor
  · intro h0 h1
    have hw : wrapInt v = v := wrapInt_of_isInt v ⟨by unfold INT_MIN; omega, h1⟩
    rw [h, if_pos h0, hw]
  · intro hneg
    rw [h, if_neg (by omega)]

/-- C9 (witness): the chunk `"10\nxx\n"` yields the clock reading plus 10
seconds, the chunk `"10\n-5\n"` the clock reading plus the timeout 30. -/
theorem getNewPetExpiration_last_integer_witness :
    tokenValue [49, 48] = some 10 ∧ tokenValue [45, 53] = some (-5) ∧
      tokenValue [120, 120] = none ∧
      (getNewPetExpiration ⟨⟨90, 0⟩, ⟨90, 0⟩, 1, 6, Mem.ofString "10\nxx\n", ⟨0, 4⟩, ⟨100, 0⟩⟩
        4 10 30 ⟨120, 0⟩).map PetResult.expiration = some (timeInNSeconds 10 ⟨100, 0⟩) ∧
      (getNewPetExpiration ⟨⟨90, 0⟩, ⟨90, 0⟩, 1, 6, Mem.ofString "10\n-5\n", ⟨0, 4⟩, ⟨100, 0⟩⟩
        4 10 30 ⟨120, 0⟩).map PetResult.expiration = some (timeInNSeconds 30 ⟨100, 0⟩) :=
  ⟨by decide, by decide, by decide,
    (getNewPetExpiration_last_integer
      ⟨⟨90, 0⟩, ⟨90, 0⟩, 1, 6, Mem.ofString "10\nxx\n", ⟨0, 4⟩, ⟨100, 0⟩⟩ 4 10 30 ⟨120, 0⟩
      [] [[120, 120]] [49, 48] 10 (by decide) (by decide) (by decide) (by decide) (by decide)
      (by decide)).1 (by decide) (by decide),
    (getNewPetExpiration_last_integer
      ⟨⟨90, 0⟩, ⟨90, 0⟩, 1, 6, Mem.ofString "10\n-5\n", ⟨0, 4⟩, ⟨100, 0⟩⟩ 4 10 30 ⟨120, 0⟩
      [[49, 48]] [] [45, 53] (-5) (by decide) (by decide) (by decide) (by decide) (by decide)
      (by decide)).2 (by decide)⟩

/-- Round trip of an extension request within the range of `int`: when the last
complete-integer line of a chunk of newline-terminated lines holds `k` with
`0 ≤ k ≤ INT_MAX`, the returned deadline lies exactly `k` seconds after the
clock reading of the call and is not expired at any earlier clock reading. -/
theorem getNewPetExpiration_round_trip (env : PetEnv) (fd interval timeout : Int)
    (expiration : Timeval) (pre junk : List (List Nat)) (tok : List Nat) (k : Int)
    (hready : 0 < env.selectRet)
    (hlen : env.readLen = (joinLines (pre ++ tok :: junk)).length)
    (hbuf : Mem.holds env.readBuf 0 (joinLines (pre ++ tok :: junk)))
    (htoks : ∀ t ∈ pre ++ tok :: junk, isToken t)
    (hv : tokenValue tok = some k)
    (hjunk : ∀ t ∈ junk, t ≠ [] ∧ tokenValue t = none)
    (h0 : 0 ≤ k) (h1 : k ≤ INT_MAX) (hct : env.ct3.normalized) :
    ∃ r, getNewPetExpiration env fd interval timeout expiration = some r ∧
      r.expiration.normalized ∧
      r.expiration.toMicros = env.ct3.toMicros + k * 1000000 ∧
      ∀ t : Timeval, t.normalized → t.toMicros < env.ct3.toMicros + k * 1000000 →
        isExpired r.expiration t = false := by
  have h := getNewPetExpiration_lines env fd interval timeout expiration pre junk tok k hready
    hlen hbuf htoks hv hjunk
  have hw : wrapInt k = k := wrapInt_of_isInt k ⟨by unfold INT_MIN; omega, h1⟩
  rw [if_pos h0, hw] at h
  cases hr : getNewPetExpiration env fd interval timeout expiration with
  | none => rw [hr] at h; simp at h
  | some r =>
  rw [hr] at h
  simp only [Option.map_some', Option.some.injEq] at h
  refine ⟨r, rfl, ?_, ?_, ?_⟩
  · rw [h]; exact timeInNSeconds_normalized k env.ct3 hct
  · rw [h]; exact timeInNSeconds_toMicros k env.ct3
  · intro t ht hlt
    have hn : r.expiration.normalized := by rw [h]; exact timeInNSeconds_normalized k env.ct3 hct
    have hm : r.expiration.toMicros = env.ct3.toMicros + k * 1000000 := by
      rw [h]; exact timeInNSeconds_toMicros k env.ct3
    cases hx : isExpired r.expiration t
    · rfl
    · have := (timercmpLt_iff r.expiration t hn ht).1 hx
      omega

/-- C2 (failing input): the chunk `"ab\n12"` consists of the tokens `ab` and `12`,
of which only the last is a complete integer, so the parsing contract gives 12;
`getLastNumberInBuffer` returns -1. -/
theorem getLastNumberInBuffer_misses_last_token :
    tokensOf (bytesOf "ab\n12") = [bytesOf "ab", bytesOf "12"] ∧
      lastCompleteInteger (bytesOf "ab\n12") = some 12 ∧
      getLastNumberInBuffer (Mem.ofString "ab\n12") 5 = some (-1) := by
  decide

/-- C3 (failing input): a successful read of the single byte `a`, in which no
token parses as an integer, makes `getNewPetExpiration` return the clock reading
itself (an extension of 0 seconds), not the clock reading plus the timeout 30. -/
theorem getNewPetExpiration_single_byte_no_fallback :
    lastCompleteInteger (bytesOf "a") = none ∧
      getLastNumberInBuffer (Mem.ofString "a") 1 = some 0 ∧
      (getNewPetExpiration ⟨⟨90, 0⟩, ⟨90, 0⟩, 1, 1, Mem.ofString "a", ⟨0, 4⟩, ⟨100, 0⟩⟩
        4 10 30 ⟨120, 0⟩).map PetResult.expiration = some ⟨100, 0⟩ ∧
      timeInNSeconds 30 ⟨100, 0⟩ = ⟨130, 0⟩ := by
  decide

/-- C4 (failing input): the line `2147483648` is parsed as the `long` value
2147483648, which the `int` parameter of `timeInNSeconds` turns into
-2147483648: the returned deadline lies 2147483648 seconds before the clock
reading, not after it, and is expired at that very reading. -/
theorem getNewPetExpiration_truncates_extension :
    lastCompleteInteger (bytesOf "2147483648\n") = some 2147483648 ∧
      getLastNumberInBuffer (Mem.ofString "2147483648\n") 11 = some 2147483648 ∧
      (0 : Int) ≤ 2147483648 ∧ (2147483648 : Int) ≤ LONG_MAX ∧
      (getNewPetExpiration ⟨⟨90, 0⟩, ⟨90, 0⟩, 1, 11, Mem.ofString "2147483648\n", ⟨0, 4⟩,
        ⟨100, 0⟩⟩ 4 10 30 ⟨120, 0⟩).map PetResult.expiration = some ⟨100 - 2147483648, 0⟩ ∧
      isExpired ⟨100 - 2147483648, 0⟩ ⟨100, 0⟩ = true := by
  decide

/-! ## The control fifo when no extension is obtained -/

/-- C11: when the channel is not ready (`select` returns no ready descriptor) or
`read` returns zero or a negative count, `getNewPetExpiration` returns the input
deadline unchanged.  In the not-ready case the descriptor is unchanged and
nothing is read or closed; in the zero/negative-read case the old descriptor is
closed and `*fd` becomes the result of `createAndOpenPetForReading`, which is
the newly opened descriptor when the creation succeeds. -/
theorem getNewPetExpiration_no_extension (env : PetEnv) (fd interval timeout : Int)
    (expiration : Timeval) (h : env.selectRet ≤ 0 ∨ env.readLen ≤ 0) :
    ∃ r, getNewPetExpiration env fd interval timeout expiration = some r ∧
      r.expiration = expiration ∧
      (env.selectRet ≤ 0 →
        r.fd = fd ∧
        r.events = [Event.select (fd + 1) (getLesserTimeout interval expiration env.ct1 env.ct2)]) ∧
      (0 < env.selectRet →
        r.fd = (createAndOpenPetForReading env.fifo).2 ∧
        r.events = [Event.select (fd + 1) (getLesserTimeout interval expiration env.ct1 env.ct2),
            Event.read fd, Event.close fd] ++ (createAndOpenPetForReading env.fifo).1 ∧
        (env.fifo.mkfifoRet = 0 → 0 ≤ env.fifo.openFd → r.fd = env.fifo.openFd)) := by
  by_cases hs : 0 < env.selectRet
  · have hl : env.readLen ≤ 0 := by
      rcases h with h | h
      · omega
      · exact h
    refine ⟨⟨expiration, (createAndOpenPetForReading env.fifo).2,
      [Event.select (fd + 1) (getLesserTimeout interval expiration env.ct1 env.ct2),
        Event.read fd, Event.close fd] ++ (createAndOpenPetForReading env.fifo).1⟩, ?_, rfl, ?_, ?_⟩
    · simp [getNewPetExpiration, isFifoReadyToRead, hs, hl]
    · intro hn; omega
    · intro _
      refine ⟨rfl, rfl, ?_⟩
      intro hm ho
      have ho' : ¬ env.fifo.openFd < 0 := by omega
      simp [createAndOpenPetForReading, hm, ho']
  · refine ⟨⟨expiration, fd,
      [Event.select (fd + 1) (getLesserTimeout interval expiration env.ct1 env.ct2)]⟩, ?_, rfl, ?_, ?_⟩
    · simp [getNewPetExpiration, isFifoReadyToRead, hs]
    · intro _; exact ⟨rfl, rfl⟩
    · intro hp; exact absurd hp hs

/-- C11 (witness): a ready channel on descriptor 4 whose `read` returns 0, with a
successful re-creation yielding descriptor 7: the deadline 120 s is returned
unchanged, descriptor 4 is closed and `*fd` becomes 7. -/
theorem getNewPetExpiration_no_extension_witness :
    ((1 : Int) ≤ 0 ∨ (0 : Int) ≤ 0) ∧
      ∃ r, getNewPetExpiration ⟨⟨90, 0⟩, ⟨90, 0⟩, 1, 0, Mem.ofString "", ⟨0, 7⟩, ⟨100, 0⟩⟩
          4 10 30 ⟨120, 0⟩ = some r ∧
        r.expiration = ⟨120, 0⟩ ∧
        ((1 : Int) ≤ 0 →
          r.fd = 4 ∧
          r.events = [Event.select (4 + 1) (getLesserTimeout 10 ⟨120, 0⟩ ⟨90, 0⟩ ⟨90, 0⟩)]) ∧
        ((0 : Int) < 1 →
          r.fd = (createAndOpenPetForReading ⟨0, 7⟩).2 ∧
          r.events = [Event.select (4 + 1) (getLesserTimeout 10 ⟨120, 0⟩ ⟨90, 0⟩ ⟨90, 0⟩),
              Event.read 4, Event.close 4] ++ (createAndOpenPetForReading ⟨0, 7⟩).1 ∧
          ((0 : Int) = 0 → (0 : Int) ≤ 7 → r.fd = 7)) :=
  ⟨by decide,
    getNewPetExpiration_no_extension ⟨⟨90, 0⟩, ⟨90, 0⟩, 1, 0, Mem.ofString "", ⟨0, 7⟩, ⟨100, 0⟩⟩
      4 10 30 ⟨120, 0⟩ (by decide)⟩

/-! ## The wait handed to `select` -/

theorem getLesserTimeout_not_above (interval : Int) (expiration ct1 ct2 : Timeval) :
    timercmpLt ⟨interval, 0⟩ (getLesserTimeout interval expiration ct1 ct2) = false := by
  have hrefl : timercmpLt ⟨interval, 0⟩ ⟨interval, 0⟩ = false := by
    simp [timercmpLt]
  cases hx : isExpired expiration ct1
  · rw [getLesserTimeout_of_not_expired interval expiration ct1 ct2 hx]
    cases hc : timercmpLt ⟨interval, 0⟩ (timersub expiration ct2)
    · simp [hc]
    · simp [hrefl]
  · have : getLesserTimeout interval expiration ct1 ct2 = ⟨interval, 0⟩ := by
      simp [getLesserTimeout, hx, timerclear]
    rw [this, hrefl]

theorem getLesserTimeout_normalized (interval : Int) (expiration ct1 ct2 : Timeval)
    (he : expiration.normalized) (hc : ct2.normalized) :
    (getLesserTimeout interval expiration ct1 ct2).normalized := by
  have htv : (⟨interval, 0⟩ : Timeval).normalized := by
    unfold Timeval.normalized; simp
  cases hx : isExpired expiration ct1
  · rw [getLesserTimeout_of_not_expired interval expiration ct1 ct2 hx]
    split
    · exact htv
    · exact timersub_normalized expiration ct2 he hc
  · have : getLesserTimeout interval expiration ct1 ct2 = ⟨interval, 0⟩ := by
      simp [getLesserTimeout, hx, timerclear]
    rw [this]; exact htv

theorem getLesserTimeout_le_interval (interval : Int) (expiration ct1 ct2 : Timeval)
    (he : expiration.normalized) (hc : ct2.normalized) :
    (getLesserTimeout interval expiration ct1 ct2).toMicros ≤ interval * 1000000 := by
  have htv : (⟨interval, 0⟩ : Timeval).normalized := by
    unfold Timeval.normalized; simp
  have hn := getLesserTimeout_normalized interval expiration ct1 ct2 he hc
  have hnot := getLesserTimeout_not_above interval expiration ct1 ct2
  have hiff := timercmpLt_iff ⟨interval, 0⟩ (getLesserTimeout interval expiration ct1 ct2) htv hn
  have htvm : (⟨interval, 0⟩ : Timeval).toMicros = interval * 1000000 := by
    simp [Timeval.toMicros]
  rw [htvm] at hiff
  by_contra hgt
  have := hiff.2 (not_le.1 hgt)
  rw [hnot] at this
  exact absurd this (by decide)

theorem getNewPetExpiration_events_head (env : PetEnv) (fd interval timeout : Int)
    (expiration : Timeval) (r : PetResult)
    (h : getNewPetExpiration env fd interval timeout expiration = some r) :
    ∃ tl, r.events = Event.select (fd + 1)
        (getLesserTimeout interval expiration env.ct1 env.ct2) :: tl ∧
      tl.all (fun e => !e.isSelect) = true := by
  unfold getNewPetExpiration at h
  simp only at h
  split at h
  · simp only [Option.some.injEq] at h
    subst h
    exact ⟨[], rfl, rfl⟩
  · split at h
    · simp only [Option.some.injEq] at h
      subst h
      refine ⟨[Event.read fd, Event.close fd] ++ (createAndOpenPetForReading env.fifo).1, rfl, ?_⟩
      unfold createAndOpenPetForReading
      split
      · rfl
      · split <;> rfl
    · split at h
      · simp at h
      · split at h
        · simp at h
        · split at h <;>
          · simp only [Option.some.injEq] at h
            subst h
            exact ⟨[Event.read fd], rfl, rfl⟩

theorem getNewPetExpiration_expiration_normalized (env : PetEnv) (fd interval timeout : Int)
    (expiration : Timeval) (r : PetResult)
    (h : getNewPetExpiration env fd interval timeout expiration = some r)
    (he : expiration.normalized) (hc : env.ct3.normalized) : r.expiration.normalized := by
  unfold getNewPetExpiration at h
  simp only at h
  split at h
  · simp only [Option.some.injEq] at h
    subst h
    exact he
  · split at h
    · simp only [Option.some.injEq] at h
      subst h
      exact he
    · split at h
      · simp at h
      · split at h
        · simp at h
        · split at h <;>
          · simp only [Option.some.injEq] at h
            subst h
            exact timeInNSeconds_normalized _ _ hc

/-- The waits of one iteration of the event loop, and what the iteration keeps. -/
theorem loopBody_waits (d : Daemon) (env : IterEnv) (evs : List Event) (next : Option Daemon)
    (h : loopBody d env = some (evs, next)) (he : d.petExpiration.normalized)
    (h2 : env.pet.ct2.normalized) (h3 : env.pet.ct3.normalized) :
    (∀ nfds w, Event.select nfds w ∈ evs → w.normalized ∧ w.toMicros ≤ d.interval * 1000000) ∧
      (∀ d1, next = some d1 → d1.interval = d.interval ∧ d1.petExpiration.normalized) := by
  have key : ∀ r, getNewPetExpiration env.pet d.petFd d.interval d.timeout d.petExpiration
      = some r →
      (∀ nfds w, Event.select nfds w ∈ pet d.watchdogFd ++ r.events →
        w.normalized ∧ w.toMicros ≤ d.interval * 1000000) ∧ r.expiration.normalized := by
    intro r hr
    obtain ⟨tl, h1, htl⟩ := getNewPetExpiration_events_head env.pet d.petFd d.interval d.timeout
      d.petExpiration r hr
    refine ⟨?_, getNewPetExpiration_expiration_normalized _ _ _ _ _ r hr he h3⟩
    intro nfds w hw
    rw [h1] at hw
    rcases List.mem_append.1 hw with hp | hp
    · unfold pet at hp
      split at hp <;> simp at hp
    · rcases List.mem_cons.1 hp with e | e
      · simp only [Event.select.injEq] at e
        rw [e.2]
        exact ⟨getLesserTimeout_normalized _ _ _ _ he h2,
          getLesserTimeout_le_interval _ _ _ _ he h2⟩
      · have := List.all_eq_true.1 htl _ e
        simp [Event.isSelect] at this
  unfold loopBody at h
  cases hx : isExpired d.petExpiration env.ctCheck
  · simp only [hx, Bool.false_eq_true, not_false_eq_true, if_true] at h
    cases hr : getNewPetExpiration env.pet d.petFd d.interval d.timeout d.petExpiration with
    | none => simp [hr] at h
    | some r =>
      simp only [hr, Option.some.injEq, Prod.mk.injEq] at h
      obtain ⟨k1, k2⟩ := key r hr
      refine ⟨?_, ?_⟩
      · rw [← h.1]; exact k1
      · intro d1 hd1
        rw [← h.2] at hd1
        simp only [Option.some.injEq] at hd1
        rw [← hd1]
        exact ⟨rfl, k2⟩
  · simp only [hx, not_true_eq_false, if_false] at h
    by_cases ht : d.isTestMode = true
    · simp only [ht, if_true, Option.some.injEq, Prod.mk.injEq] at h
      refine ⟨?_, ?_⟩
      · rw [← h.1]; intro nfds w hw; simp at hw
      · intro d1 hd1; rw [← h.2] at hd1; simp at hd1
    · simp only [ht, Bool.false_eq_true, if_false] at h
      cases hr : getNewPetExpiration env.pet d.petFd d.interval d.timeout d.petExpiration with
      | none => simp [hr] at h
      | some r =>
        simp only [hr, Option.some.injEq, Prod.mk.injEq] at h
        obtain ⟨k1, k2⟩ := key r hr
        refine ⟨?_, ?_⟩
        · rw [← h.1]
          intro nfds w hw
          exact k1 nfds w (List.mem_append_right _ hw)
        · intro d1 hd1
          rw [← h.2] at hd1
          simp only [Option.some.injEq] at hd1
          rw [← hd1]
          exact ⟨rfl, k2⟩

/-- Every wait of the event loop is bounded by the interval the loop starts with. -/
theorem eventLoop_waits (iters : List IterEnv) :
    ∀ (d : Daemon) (evs : List Event) (res : Option Daemon),
      d.petExpiration.normalized →
      (∀ it ∈ iters, it.pet.ct2.normalized ∧ it.pet.ct3.normalized) →
      eventLoop d iters = some (evs, res) →
      ∀ nfds w, Event.select nfds w ∈ evs → w.normalized ∧ w.toMicros ≤ d.interval * 1000000 := by
  induction iters with
  | nil =>
    intro d evs res _ _ h nfds w hw
    simp only [eventLoop, Option.some.injEq, Prod.mk.injEq] at h
    rw [← h.1] at hw
    simp at hw
  | cons it rest ih =>
    intro d evs res he hall h nfds w hw
    have hit := hall it (List.mem_cons_self _ _)
    unfold eventLoop at h
    by_cases hc : it.continueRunning = true
    · simp only [hc, if_true] at h
      cases hb : loopBody d it with
      | none => simp [hb] at h
      | some val =>
        obtain ⟨evs0, next⟩ := val
        have hw0 := loopBody_waits d it evs0 next hb he hit.1 hit.2
        cases next with
        | none =>
          simp only [hb, Option.some.injEq, Prod.mk.injEq] at h
          rw [← h.1] at hw
          exact hw0.1 nfds w hw
        | some d1 =>
          obtain ⟨hi1, hn1⟩ := hw0.2 d1 rfl
          simp only [hb] at h
          cases hl : eventLoop d1 rest with
          | none => simp [hl] at h
          | some val1 =>
            obtain ⟨evs1, r1⟩ := val1
            simp only [hl, Option.some.injEq, Prod.mk.injEq] at h
            rw [← h.1] at hw
            rcases List.mem_append.1 hw with e | e
            · exact hw0.1 nfds w e
            · have := ih d1 evs1 r1 hn1
                (fun x hx => hall x (List.mem_cons_of_mem _ hx)) hl nfds w e
              rw [hi1] at this
              exact this
    · simp only [hc, Bool.false_eq_true, if_false, Option.some.injEq, Prod.mk.injEq] at h
      rw [← h.1] at hw
      simp at hw

theorem handleArguments_normalized (args : List Int) (ct : Timeval) (s : Settings)
    (hs : s.petExpiration.normalized) (hc : ct.normalized) :
    (handleArguments args ct s).petExpiration.normalized := by
  unfold handleArguments
  simp only
  split <;> split <;> split <;>
    first
    | exact timeInNSeconds_normalized _ _ hc
    | exact hs

/-- What the setup part of `main` hands to the event loop: the interval is the
one `setWatchdogTimeout` returns (outside test mode), the deadline is
normalised. -/
theorem startup_interval (menv : MainEnv) (d : Daemon) (h : (startup menv).2 = Except.ok d)
    (h1 : menv.ctInit.normalized) (h2 : menv.ctArgs.normalized) :
    d.interval =
        (if menv.isTestMode = true then
          (handleArguments menv.args menv.ctArgs ⟨10, 20, timeInNSeconds 30 menv.ctInit⟩).interval
        else
          (setWatchdogTimeout menv.driver menv.watchdogFd
            (handleArguments menv.args menv.ctArgs ⟨10, 20, timeInNSeconds 30 menv.ctInit⟩).interval
            (handleArguments menv.args menv.ctArgs ⟨10, 20, timeInNSeconds 30 menv.ctInit⟩).margin).2) ∧
      d.petExpiration.normalized := by
  have hn := handleArguments_normalized menv.args menv.ctArgs
    ⟨10, 20, timeInNSeconds 30 menv.ctInit⟩ (timeInNSeconds_normalized 30 _ h1) h2
  unfold startup at h
  simp only at h
  split at h
  · rename_i ht
    split at h
    · simp at h
    · simp only [Except.ok.injEq] at h
      subst h
      have : ¬ menv.isTestMode = true := ht
      refine ⟨?_, hn⟩
      simp [this]
  · rename_i ht
    simp only [Except.ok.injEq] at h
    subst h
    have : menv.isTestMode = true := by simpa using ht
    refine ⟨?_, hn⟩
    simp [this]

/-- C12: for every interval `i` and every normalised deadline, expired or not,
and all clock readings (the second one normalised), the wait that
`getNewPetExpiration` hands to the readiness check is
`getLesserTimeout(i, deadline)`, which does not exceed `i` seconds; a call that
returns has issued this `select` first and no other, and a call returns whenever
its parse stays inside `buf`.  In `main` the interval of the event loop is the
one `setWatchdogTimeout` returned (outside test mode), and every wait of the
loop is bounded by it. -/
theorem getNewPetExpiration_wait_le_interval (env : PetEnv) (fd interval timeout : Int)
    (expiration : Timeval) (he : expiration.normalized) (hc : env.ct2.normalized) :
    (isFifoReadyToRead fd (getLesserTimeout interval expiration env.ct1 env.ct2) env.selectRet).1
        = [Event.select (fd + 1) (getLesserTimeout interval expiration env.ct1 env.ct2)] ∧
      (getLesserTimeout interval expiration env.ct1 env.ct2).normalized ∧
      (getLesserTimeout interval expiration env.ct1 env.ct2).toMicros ≤ interval * 1000000 ∧
      (getLesserTimeout interval expiration env.ct1 env.ct2).tv_sec ≤ interval ∧
      (∀ r, getNewPetExpiration env fd interval timeout expiration = some r →
        ∃ tl, r.events
            = Event.select (fd + 1) (getLesserTimeout interval expiration env.ct1 env.ct2) :: tl ∧
          tl.all (fun e => !e.isSelect) = true) ∧
      (env.parseInBounds → ∃ r, getNewPetExpiration env fd interval timeout expiration = some r) ∧
      (∀ (menv : MainEnv) (d : Daemon) (iters : List IterEnv) (evs : List Event)
          (res : Option Daemon),
        (startup menv).2 = Except.ok d → menv.ctInit.normalized → menv.ctArgs.normalized →
        (∀ it ∈ iters, it.pet.ct2.normalized ∧ it.pet.ct3.normalized) →
        eventLoop d iters = some (evs, res) →
        d.interval =
            (if menv.isTestMode = true then
              (handleArguments menv.args menv.ctArgs
                ⟨10, 20, timeInNSeconds 30 menv.ctInit⟩).interval
            else
              (setWatchdogTimeout menv.driver menv.watchdogFd
                (handleArguments menv.args menv.ctArgs
                  ⟨10, 20, timeInNSeconds 30 menv.ctInit⟩).interval
                (handleArguments menv.args menv.ctArgs
                  ⟨10, 20, timeInNSeconds 30 menv.ctInit⟩).margin).2) ∧
          ∀ nfds w, Event.select nfds w ∈ evs →
            w.normalized ∧ w.toMicros ≤ d.interval * 1000000) := by
  have hn := getLesserTimeout_normalized interval expiration env.ct1 env.ct2 he hc
  have hle := getLesserTimeout_le_interval interval expiration env.ct1 env.ct2 he hc
  refine ⟨rfl, hn, hle, ?_, ?_, ?_, ?_⟩
  · unfold Timeval.normalized at hn
    unfold Timeval.toMicros at hle
    omega
  · intro r hr
    exact getNewPetExpiration_events_head env fd interval timeout expiration r hr
  · intro hb
    exact getNewPetExpiration_isSome env fd interval timeout expiration hb
  · intro menv d iters evs res hd h1 h2 hall hl
    obtain ⟨hi, hdn⟩ := startup_interval menv d hd h1 h2
    exact ⟨hi, eventLoop_waits iters d evs res hdn hall hl⟩

/-- C12 (witness): interval 10, margin 20, the driver grants 15: `main` enters the
loop with interval 1, and in an iteration with a deadline 30 s ahead the wait
handed to `select` is 1 s. -/
theorem getNewPetExpiration_wait_le_interval_witness :
    (startup ⟨false, [10, 20], ⟨100, 0⟩, ⟨100, 0⟩, ⟨0, 4⟩, 3, ⟨-1, 0, 15⟩⟩).2
        = Except.ok ⟨false, 30, 1, 20, 4, 3, ⟨130, 0⟩⟩ ∧
      eventLoop ⟨false, 30, 1, 20, 4, 3, ⟨130, 0⟩⟩
          [⟨true, ⟨100, 0⟩, ⟨⟨100, 0⟩, ⟨100, 5⟩, 0, 0, Mem.ofString "", ⟨0, 7⟩, ⟨100, 9⟩⟩⟩]
        = some ([Event.write 3, Event.select 5 ⟨1, 0⟩], none) ∧
      (1 : Int) = (setWatchdogTimeout ⟨-1, 0, 15⟩ 3 10 20).2 ∧
      ∀ nfds w, Event.select nfds w ∈ [Event.write 3, Event.select 5 ⟨1, 0⟩] →
        w.normalized ∧ w.toMicros ≤ 1 * 1000000 := by
  have h := (getNewPetExpiration_wait_le_interval
    ⟨⟨100, 0⟩, ⟨100, 5⟩, 0, 0, Mem.ofString "", ⟨0, 7⟩, ⟨100, 9⟩⟩ 4 1 30 ⟨130, 0⟩
    (by decide) (by decide)).2.2.2.2.2.2
    ⟨false, [10, 20], ⟨100, 0⟩, ⟨100, 0⟩, ⟨0, 4⟩, 3, ⟨-1, 0, 15⟩⟩
    ⟨false, 30, 1, 20, 4, 3, ⟨130, 0⟩⟩
    [⟨true, ⟨100, 0⟩, ⟨⟨100, 0⟩, ⟨100, 5⟩, 0, 0, Mem.ofString "", ⟨0, 7⟩, ⟨100, 9⟩⟩⟩]
    [Event.write 3, Event.select 5 ⟨1, 0⟩] none (by rfl) (by decide) (by decide) (by decide)
    (by decide)
  exact ⟨by rfl, by decide, h.1, h.2⟩

/-- C14 (failing input): interval 10, deadline 10.000000 s, first clock reading
10.000000 s (the deadline is not expired), second clock reading 10.000001 s:
`getLesserTimeout` returns `{-1, 999999}`, a wait of minus one microsecond. -/
theorem getLesserTimeout_negative_wait :
    (0 : Int) ≤ 10 ∧ Timeval.toMicros ⟨10, 0⟩ ≤ Timeval.toMicros ⟨10, 1⟩ ∧
      isExpired ⟨10, 0⟩ ⟨10, 0⟩ = false ∧
      getLesserTimeout 10 ⟨10, 0⟩ ⟨10, 0⟩ ⟨10, 1⟩ = ⟨-1, 999999⟩ ∧
      (getLesserTimeout 10 ⟨10, 0⟩ ⟨10, 0⟩ ⟨10, 1⟩).toMicros = -1 ∧
      timercmpLt (getLesserTimeout 10 ⟨10, 0⟩ ⟨10, 0⟩ ⟨10, 1⟩) ⟨0, 0⟩ = true := by
  decide

/-! ## Leaving the event loop -/

theorem loopBody_test_mode_expired (d : Daemon) (env : IterEnv)
    (ht : d.isTestMode = true) (hx : isExpired d.petExpiration env.ctCheck = true) :
    loopBody d env = some ([], none) := by
  simp [loopBody, ht, hx]

theorem loopBody_not_test_mode (d : Daemon) (env : IterEnv) (ht : d.isTestMode = false)
    (evs : List Event) (next : Option Daemon) (h : loopBody d env = some (evs, next)) :
    ∃ d1, next = some d1 ∧ d1.isTestMode = false := by
  unfold loopBody at h
  cases hr : getNewPetExpiration env.pet d.petFd d.interval d.timeout d.petExpiration with
  | none =>
    simp only [hr, ht, Bool.false_eq_true, if_false] at h
    split at h <;> simp at h
  | some r =>
    simp only [hr, ht, Bool.false_eq_true, if_false] at h
    split at h <;>
    · simp only [Option.some.injEq, Prod.mk.injEq] at h
      exact ⟨_, h.2.symm, rfl⟩

/-- Outside test mode the loop is not left while `continueRunning` is set. -/
theorem eventLoop_not_test_mode (iters : List IterEnv) :
    ∀ (d : Daemon) (evs : List Event) (res : Option Daemon), d.isTestMode = false →
      (∀ e ∈ iters, e.continueRunning = true) →
      eventLoop d iters = some (evs, res) → res = none := by
  induction iters with
  | nil =>
    intro d evs res _ _ h
    simp only [eventLoop, Option.some.injEq, Prod.mk.injEq] at h
    exact h.2.symm
  | cons e rest ih =>
    intro d evs res ht hall h
    have hc : e.continueRunning = true := hall e (List.mem_cons_self _ _)
    unfold eventLoop at h
    simp only [hc, if_true] at h
    cases hb : loopBody d e with
    | none => simp [hb] at h
    | some val =>
      obtain ⟨evs0, next⟩ := val
      obtain ⟨d1, hn, ht1⟩ := loopBody_not_test_mode d e ht evs0 next hb
      subst hn
      simp only [hb] at h
      cases hl : eventLoop d1 rest with
      | none => simp [hl] at h
      | some val1 =>
        obtain ⟨evs1, r1⟩ := val1
        simp only [hl, Option.some.injEq, Prod.mk.injEq] at h
        rw [← h.2]
        exact ih d1 evs1 r1 ht1 (fun x hx => hall x (List.mem_cons_of_mem _ hx)) hl

/-- Outside test mode the loop keeps running while `continueRunning` is set and
the parses stay inside `buf`. -/
theorem eventLoop_runs (iters : List IterEnv) :
    ∀ d : Daemon, d.isTestMode = false →
      (∀ e ∈ iters, e.continueRunning = true ∧ e.pet.parseInBounds) →
      ∃ evs, eventLoop d iters = some (evs, none) := by
  induction iters with
  | nil => intro d _ _; exact ⟨[], rfl⟩
  | cons e rest ih =>
    intro d ht hall
    obtain ⟨hc, hb⟩ := hall e (List.mem_cons_self _ _)
    obtain ⟨r, hr⟩ := getNewPetExpiration_isSome e.pet d.petFd d.interval d.timeout
      d.petExpiration hb
    have hbody : ∃ evs0 d1, loopBody d e = some (evs0, some d1) ∧ d1.isTestMode = false := by
      unfold loopBody
      simp only [hr, ht, Bool.false_eq_true, if_false]
      split <;> exact ⟨_, _, rfl, rfl⟩
    obtain ⟨evs0, d1, h0, ht1⟩ := hbody
    obtain ⟨evs1, h1⟩ := ih d1 ht1 (fun x hx => hall x (List.mem_cons_of_mem _ hx))
    exact ⟨evs0 ++ evs1, by simp [eventLoop, hc, h0, h1]⟩

theorem createAndOpenPetForReading_quiet (e : FifoEnv) :
    (createAndOpenPetForReading e).1.all (fun ev => !ev.isWrite && !ev.isSelect) = true := by
  unfold createAndOpenPetForReading
  split
  · rfl
  · split <;> rfl

/-- C13: in test mode, when the deadline is expired at the expiry check of the
first iteration, that iteration issues no system call and leaves the loop, and
`main` returns status 0 having issued no `write` and no `select` at all.
Outside test mode no iteration leaves the loop, expired deadline or not: while
`continueRunning` is set the loop is never left, and it keeps running as long as
the parses of the control channel stay inside `buf`. -/
theorem main_test_mode_expired (env : MainEnv) (it : IterEnv) (rest : List IterEnv)
    (d : Daemon) (ht : env.isTestMode = true) (hd : (startup env).2 = Except.ok d)
    (hrun : it.continueRunning = true)
    (hx : isExpired d.petExpiration it.ctCheck = true) :
    loopBody d it = some ([], none) ∧
      (∃ evs, main env (it :: rest) = some (evs, some 0) ∧
        evs.all (fun ev => !ev.isWrite && !ev.isSelect) = true) ∧
      (∀ (d1 : Daemon) (iters : List IterEnv), d1.isTestMode = false →
        (∀ e ∈ iters, e.continueRunning = true) →
        (∀ evs res, eventLoop d1 iters = some (evs, res) → res = none) ∧
        ((∀ e ∈ iters, e.pet.parseInBounds) → ∃ evs, eventLoop d1 iters = some (evs, none))) := by
  have hdt : d.isTestMode = true := by
    unfold startup at hd
    simp only [ht, not_true_eq_false, if_false, Except.ok.injEq] at hd
    rw [← hd]
  have hb := loopBody_test_mode_expired d it hdt hx
  refine ⟨hb, ?_, fun d1 iters h1 h2 =>
    ⟨fun evs res h => eventLoop_not_test_mode iters d1 evs res h1 h2 h,
      fun h3 => eventLoop_runs iters d1 h1 (fun e he => ⟨h2 e he, h3 e he⟩)⟩⟩
  have hs : startup env = ((createAndOpenPetForReading env.fifo).1, Except.ok d) := by
    have h1 : (startup env).1 = (createAndOpenPetForReading env.fifo).1 := by
      unfold startup
      simp [ht]
    exact Prod.ext h1 hd
  have hl : eventLoop d (it :: rest) = some ([], some d) := by
    simp [eventLoop, hrun, hb]
  refine ⟨(createAndOpenPetForReading env.fifo).1 ++ [] ++ (shutdown d).1, ?_, ?_⟩
  · simp [main, hs, hl, shutdown]
  · have hq := createAndOpenPetForReading_quiet env.fifo
    simp only [List.append_nil, List.all_append, hq, Bool.true_and]
    rfl

/-- C13 (witness): test mode with a grace period of -1 second: the deadline is
99 s at the first expiry check at 100 s, and `main` returns 0.  Outside test
mode the same expired deadline leaves the loop running. -/
theorem main_test_mode_expired_witness :
    (startup ⟨true, [10, 20, -1], ⟨100, 0⟩, ⟨100, 0⟩, ⟨0, 4⟩, -1, ⟨0, 0, 0⟩⟩).2
        = Except.ok ⟨true, 30, 10, 20, 4, -1, ⟨99, 0⟩⟩ ∧
      isExpired ⟨99, 0⟩ ⟨100, 0⟩ = true ∧
      (∃ evs, main ⟨true, [10, 20, -1], ⟨100, 0⟩, ⟨100, 0⟩, ⟨0, 4⟩, -1, ⟨0, 0, 0⟩⟩
          [⟨true, ⟨100, 0⟩, ⟨⟨100, 0⟩, ⟨100, 0⟩, 0, 0, Mem.ofString "", ⟨0, 7⟩, ⟨100, 0⟩⟩⟩]
          = some (evs, some 0) ∧
        evs.all (fun ev => !ev.isWrite && !ev.isSelect) = true) ∧
      ∃ evs, eventLoop ⟨false, 30, 10, 20, 4, 3, ⟨99, 0⟩⟩
          [⟨true, ⟨100, 0⟩, ⟨⟨100, 0⟩, ⟨100, 0⟩, 0, 0, Mem.ofString "", ⟨0, 7⟩, ⟨100, 0⟩⟩⟩]
          = some (evs, none) := by
  have h := main_test_mode_expired
    ⟨true, [10, 20, -1], ⟨100, 0⟩, ⟨100, 0⟩, ⟨0, 4⟩, -1, ⟨0, 0, 0⟩⟩
    ⟨true, ⟨100, 0⟩, ⟨⟨100, 0⟩, ⟨100, 0⟩, 0, 0, Mem.ofString "", ⟨0, 7⟩, ⟨100, 0⟩⟩⟩ []
    ⟨true, 30, 10, 20, 4, -1, ⟨99, 0⟩⟩ rfl (by rfl) rfl (by decide)
  refine ⟨by rfl, by decide, h.2.1, ?_⟩
  refine (h.2.2 ⟨false, 30, 10, 20, 4, 3, ⟨99, 0⟩⟩
    [⟨true, ⟨100, 0⟩, ⟨⟨100, 0⟩, ⟨100, 0⟩, 0, 0, Mem.ofString "", ⟨0, 7⟩, ⟨100, 0⟩⟩⟩] rfl ?_).2 ?_
  · intro e he
    simp only [List.mem_singleton] at he
    subst he
    rfl
  · intro e he
    simp only [List.mem_singleton] at he
    subst he
    decide

/-! ## Termination of the token scan -/

theorem scanStep_progress (len : Nat) (mem : Mem) (buf : Nat) (num : Int)
    (hz : mem len = 0) (hlt : buf < len) :
    ∃ st, scanStep len mem buf num = some st ∧ buf < st.2.1 ∧ st.1 len = 0 := by
  unfold scanStep
  obtain ⟨s, hs⟩ := cstr_isSome mem len hz (len + 1) buf (by omega) (by omega)
  rw [hs]
  simp only
  have hpb := tokenEnd_ge buf len (strchr s 10) hlt
  generalize (match strchr s 10 with
      | some i => buf + i
      | none => buf + len - 1) = p at hpb ⊢
  have hz1 : (mem.write p 0) len = 0 := by
    unfold Mem.write
    by_cases e : len = p
    · simp [e]
    · simp [e, hz]
  obtain ⟨tok, ht⟩ := cstr_isSome (mem.write p 0) len hz1 (len + 1) buf (by omega) (by omega)
  rw [ht]
  exact ⟨_, rfl, by simp only; omega, hz1⟩

theorem scanRun_fst (len : Nat) :
    ∀ (fuel : Nat) (mem : Mem) (buf : Nat) (num : Int),
      (scanRun len fuel mem buf num).map Prod.fst = scanLoop len fuel mem buf num := by
  intro fuel
  induction fuel with
  | zero => intro mem buf num; rfl
  | succ n ih =>
    intro mem buf num
    unfold scanRun scanLoop scanStep
    by_cases hlt : buf < len
    · simp only [if_pos hlt]
      cases h1 : cstr mem (len + 1) buf with
      | none => rfl
      | some s =>
        simp only
        cases h2 : cstr (mem.write (match strchr s 10 with
            | some i => buf + i
            | none => buf + len - 1) 0) (len + 1) buf with
        | none => rfl
        | some tok =>
          simp only [Option.map_map]
          rw [← ih]
          congr 1
    · simp only [if_neg hlt]
      rfl

theorem scanRun_bound (len : Nat) :
    ∀ (fuel : Nat) (mem : Mem) (buf : Nat) (num : Int),
      mem len = 0 → 1 ≤ fuel → len + 1 ≤ fuel + buf →
      ∃ r k, scanRun len fuel mem buf num = some (r, k) ∧ k ≤ len - buf := by
  intro fuel
  induction fuel with
  | zero => intro mem buf num _ h1 _; omega
  | succ n ih =>
    intro mem buf num hz _ hf
    unfold scanRun
    by_cases hlt : buf < len
    · rw [if_pos hlt]
      obtain ⟨st, hst, hgt, hz1⟩ := scanStep_progress len mem buf num hz hlt
      rw [hst]
      obtain ⟨r, k, hr, hk⟩ := ih st.1 st.2.1 st.2.2 hz1 (by omega) (by omega)
      refine ⟨r, k + 1, ?_, by omega⟩
      simp [hr]
    · rw [if_neg hlt]
      exact ⟨num, 0, rfl, Nat.zero_le _⟩

/-- C17: on every memory and every `len ≥ 0` the token scan of
`getLastNumberInBuffer` terminates after at most `len` executions of the loop
body and the function returns; every execution of the body (the terminator at
`buf[len]` being in place) moves the cursor strictly forward and leaves the
terminator in place, whatever bytes the buffer holds. -/
theorem getLastNumberInBuffer_terminates (mem : Mem) (len : Nat) :
    (∃ r k, scanRun len (len + 1) (mem.write len 0) 0 (-1) = some (r, k) ∧ k ≤ len ∧
        getLastNumberInBuffer mem len = some r) ∧
      (∀ (m : Mem) (buf : Nat) (num : Int), m len = 0 → buf < len →
        ∃ st, scanStep len m buf num = some st ∧ buf < st.2.1 ∧ st.1 len = 0) := by
  refine ⟨?_, fun m buf num hz hlt => scanStep_progress len m buf num hz hlt⟩
  have hz : (mem.write len 0) len = 0 := by simp [Mem.write]
  obtain ⟨r, k, hr, hk⟩ := scanRun_bound len (len + 1) (mem.write len 0) 0 (-1) hz
    (by omega) (by omega)
  refine ⟨r, k, hr, by omega, ?_⟩
  unfold getLastNumberInBuffer
  rw [← scanRun_fst, hr]
  rfl

/-! ## The token scan without a final newline, and empty tokens -/

theorem scanLoop_succ (len fuel : Nat) (mem : Mem) (buf : Nat) (num : Int) :
    scanLoop len (fuel + 1) mem buf num =
      if buf < len then
        (scanStep len mem buf num).bind (fun st => scanLoop len fuel st.1 st.2.1 st.2.2)
      else some num := by
  rw [scanLoop]
  unfold scanStep
  by_cases hlt : buf < len
  · simp only [if_pos hlt]
    cases h1 : cstr mem (len + 1) buf with
    | none => rfl
    | some s =>
      simp only
      cases h2 : cstr (mem.write (match strchr s 10 with
          | some i => buf + i
          | none => buf + len - 1) 0) (len + 1) buf with
      | none => rfl
      | some tok => rfl
  · simp only [if_neg hlt]

theorem scanLoop_at_end (len fuel : Nat) (mem : Mem) (num : Int) :
    scanLoop len (fuel + 1) mem len num = some num := by
  rw [scanLoop_succ, if_neg (lt_irrefl _)]

theorem strchr_none (s : List Nat) (c : Nat) (h : ∀ x ∈ s, x ≠ c) : strchr s c = none := by
  induction s with
  | nil => rfl
  | cons x xs ih =>
    have hx : x ≠ c := h x (List.mem_cons_self _ _)
    simp [strchr, hx, ih (fun y hy => h y (List.mem_cons_of_mem _ hy))]

/-- The single iteration made on a buffer without newline and NUL bytes: the
last byte is overwritten and the bytes before it are the token. -/
theorem scanStep_no_newline (mem : Mem) (init : List Nat) (last : Nat) (num : Int)
    (htok : isToken (init ++ [last])) (hh : Mem.holds mem 0 (init ++ [last]))
    (hz : mem (init.length + 1) = 0) :
    scanStep (init.length + 1) mem 0 num
      = some (mem.write init.length 0, init.length + 1,
          if (strtol init).2 = init.length then (strtol init).1 else num) := by
  have hs : cstr mem (init.length + 1 + 1) 0 = some (init ++ [last]) := by
    apply cstr_eq_of_holds mem _ (fun c hc => (htok c hc).1) _ 0 hh
    · simpa using hz
    · simp
  have hc : strchr (init ++ [last]) 10 = none :=
    strchr_none _ 10 (fun c hc => (htok c hc).2)
  have hinit : Mem.holds mem 0 init := ((holds_append mem init [last] 0).1 hh).1
  have ht : cstr (mem.write init.length 0) (init.length + 1 + 1) 0 = some init := by
    apply cstr_eq_of_holds _ init (fun c hc => (htok c (List.mem_append_left _ hc)).1) _ 0
    · exact holds_write mem _ 0 init 0 (Or.inr (by omega)) hinit
    · simp [Mem.write]
    · omega
  unfold scanStep
  rw [hs]
  simp only [hc, Nat.zero_add, Nat.add_sub_cancel, ht]

/-- C15: for every buffer of `len ≥ 1` bytes without newline and NUL bytes (the
`len - 1` bytes `init` followed by the byte `last`), `getLastNumberInBuffer`
overwrites the final byte with the terminator and takes the first `len - 1`
bytes as its only token: the result is their `strtol` value when the conversion
consumes all of them (for `len ≥ 2`: when they are a complete integer), and -1
otherwise. -/
theorem getLastNumberInBuffer_no_newline (mem : Mem) (init : List Nat) (last : Nat)
    (htok : isToken (init ++ [last])) (hh : Mem.holds mem 0 (init ++ [last])) :
    scanStep (init.length + 1) (mem.write (init.length + 1) 0) 0 (-1)
        = some ((mem.write (init.length + 1) 0).write init.length 0, init.length + 1,
            if (strtol init).2 = init.length then (strtol init).1 else -1) ∧
      getLastNumberInBuffer mem (init ++ [last]).length
        = some (if (strtol init).2 = init.length then (strtol init).1 else -1) ∧
      (init ≠ [] →
        getLastNumberInBuffer mem (init ++ [last]).length = some ((tokenValue init).getD (-1))) := by
  have hh0 : Mem.holds (mem.write (init.length + 1) 0) 0 (init ++ [last]) :=
    holds_write mem _ 0 _ 0 (Or.inr (by simp)) hh
  have hz0 : (mem.write (init.length + 1) 0) (init.length + 1) = 0 := by simp [Mem.write]
  have hstep := scanStep_no_newline (mem.write (init.length + 1) 0) init last (-1) htok hh0 hz0
  have hres : getLastNumberInBuffer mem (init ++ [last]).length
      = some (if (strtol init).2 = init.length then (strtol init).1 else -1) := by
    have hl : (init ++ [last]).length = init.length + 1 := by simp
    rw [hl]
    unfold getLastNumberInBuffer
    rw [scanLoop_succ, if_pos (Nat.succ_pos _), hstep]
    exact scanLoop_at_end _ _ _ _
  refine ⟨hstep, hres, ?_⟩
  intro hne
  rw [hres]
  unfold tokenValue
  by_cases hc : (strtol init).2 = init.length
  · simp [hc, hne]
  · simp [hc]

/-- C15 (witness): the 2-byte buffer `42` yields 4. -/
theorem getLastNumberInBuffer_no_newline_witness :
    isToken ([52] ++ [50]) ∧ Mem.holds (Mem.ofString "42") 0 ([52] ++ [50]) ∧
      getLastNumberInBuffer (Mem.ofString "42") ([52] ++ [50]).length
        = some (if (strtol [52]).2 = [52].length then (strtol [52]).1 else -1) ∧
      (strtol [52]).1 = 4 ∧ (strtol [52]).2 = 1 :=
  ⟨by decide, by decide,
    (getLastNumberInBuffer_no_newline (Mem.ofString "42") [52] 50 (by decide) (by decide)).2.1,
    by decide, by decide⟩

theorem strtol_nil : strtol [] = (0, 0) := by decide

theorem scanStep_single_byte (mem : Mem) (num : Int) (hz : mem 1 = 0) :
    scanStep 1 mem 0 num = some (mem.write 0 0, 1, 0) := by
  have ht : cstr (mem.write 0 0) 2 0 = some [] := by simp [cstr, Mem.write]
  by_cases h0 : mem 0 = 0
  · have hs : cstr mem 2 0 = some [] := by simp [cstr, h0]
    unfold scanStep
    simp only [hs, strchr, Nat.zero_add, Nat.sub_self, ht, strtol_nil, if_true]
  · have hs : cstr mem 2 0 = some [mem 0] := by simp [cstr, h0, hz]
    by_cases h10 : mem 0 = 10
    · have hc : strchr [mem 0] 10 = some 0 := by simp [strchr, h10]
      unfold scanStep
      simp only [hs, hc, Nat.add_zero, ht, strtol_nil, if_true]
    · have hc : strchr [mem 0] 10 = none := by simp [strchr, h10]
      unfold scanStep
      simp only [hs, hc, Nat.zero_add, Nat.sub_self, ht, strtol_nil, if_true]

/-- On every one-byte buffer the only token is empty and is taken as 0. -/
theorem getLastNumberInBuffer_single_byte (mem : Mem) :
    getLastNumberInBuffer mem 1 = some 0 := by
  have hz : (mem.write 1 0) 1 = 0 := by simp [Mem.write]
  unfold getLastNumberInBuffer
  rw [scanLoop_succ, if_pos Nat.zero_lt_one, scanStep_single_byte _ _ hz]
  exact scanLoop_at_end 1 0 ((mem.write 1 0).write 0 0) 0

theorem joinLines_append (a b : List (List Nat)) :
    joinLines (a ++ b) = joinLines a ++ joinLines b := by
  induction a with
  | nil => rfl
  | cons t ts ih => simp [joinLines, ih]

/-- Every chunk without NUL bytes, once closed by a newline, is a sequence of
newline-terminated lines. -/
theorem lines_of_bytes (bs : List Nat) (h : ∀ c ∈ bs, c ≠ 0) :
    ∃ toks, (∀ t ∈ toks, isToken t) ∧ joinLines toks = bs ++ [10] := by
  induction bs with
  | nil =>
    refine ⟨[[]], ?_, rfl⟩
    intro t ht
    simp only [List.mem_singleton] at ht
    subst ht
    intro c hc
    simp at hc
  | cons c rest ih =>
    obtain ⟨toks, htoks, hj⟩ := ih (fun x hx => h x (List.mem_cons_of_mem _ hx))
    by_cases hc : c = 10
    · refine ⟨[] :: toks, ?_, ?_⟩
      · intro t ht
        rcases List.mem_cons.1 ht with e | e
        · subst e
          intro x hx
          simp at hx
        · exact htoks t e
      · simp [joinLines, hj, hc]
    · cases toks with
      | nil => simp [joinLines] at hj
      | cons t0 ts =>
        refine ⟨(c :: t0) :: ts, ?_, ?_⟩
        · intro t ht
          rcases List.mem_cons.1 ht with e | e
          · subst e
            intro x hx
            rcases List.mem_cons.1 hx with e1 | e1
            · subst e1
              exact ⟨h x (List.mem_cons_self _ _), hc⟩
            · exact htoks t0 (List.mem_cons_self _ _) x e1
          · exact htoks t (List.mem_cons_of_mem _ e)
        · simp only [joinLines] at hj ⊢
          simp [hj]

/-- A chunk without NUL bytes that ends in an empty line parses as 0. -/
theorem getLastNumberInBuffer_empty_last_line (mem : Mem) (pre : List Nat)
    (hnul : ∀ c ∈ pre, c ≠ 0) (hh : Mem.holds mem 0 (pre ++ [10, 10])) :
    getLastNumberInBuffer mem (pre ++ [10, 10]).length = some 0 := by
  obtain ⟨toks, htoks, hj⟩ := lines_of_bytes pre hnul
  have hbs : pre ++ [10, 10] = joinLines (toks ++ [[]]) := by
    rw [joinLines_append, hj]
    simp [joinLines]
  have hall : ∀ t ∈ toks ++ [[]], isToken t := by
    intro t ht
    rcases List.mem_append.1 ht with e | e
    · exact htoks t e
    · simp only [List.mem_singleton] at e
      subst e
      intro x hx
      simp at hx
  rw [hbs] at hh ⊢
  rw [getLastNumberInBuffer_lines mem (toks ++ [[]]) hall hh, List.foldl_append]
  simp [strtol_nil]

theorem storesInBuffer_single_byte (mem : Mem) : storesInBuffer mem 1 = true := by
  have hz : (mem.write 1 0) 1 = 0 := by simp [Mem.write]
  have h1 : scanStores 1 (1 + 1) (mem.write 1 0) 0 (-1) = [0] := by
    rw [scanStores, if_pos Nat.zero_lt_one, scanStep_single_byte _ _ hz]
    simp [scanStores]
  unfold storesInBuffer storesOf
  rw [h1]
  decide

theorem storesInBuffer_empty_last_line (mem : Mem) (pre : List Nat)
    (hnul : ∀ c ∈ pre, c ≠ 0) (hh : Mem.holds mem 0 (pre ++ [10, 10])) :
    storesInBuffer mem (pre ++ [10, 10]).length = true := by
  obtain ⟨toks, htoks, hj⟩ := lines_of_bytes pre hnul
  have hbs : pre ++ [10, 10] = joinLines (toks ++ [[]]) := by
    rw [joinLines_append, hj]
    simp [joinLines]
  have hall : ∀ t ∈ toks ++ [[]], isToken t := by
    intro t ht
    rcases List.mem_append.1 ht with e | e
    · exact htoks t e
    · simp only [List.mem_singleton] at e
      subst e
      intro x hx
      simp at hx
  rw [hbs] at hh ⊢
  exact storesInBuffer_lines mem (toks ++ [[]]) hall hh

theorem timeInNSeconds_zero (ct : Timeval) (h : ct.normalized) : timeInNSeconds 0 ct = ct := by
  unfold Timeval.normalized at h
  unfold timeInNSeconds timeradd timerclear
  have hlt : ¬ ct.tv_usec + 0 ≥ 1000000 := by omega
  simp only [if_neg hlt]
  simp

theorem getNewPetExpiration_of_number (env : PetEnv) (fd interval timeout : Int)
    (expiration : Timeval) (n : Int) (hready : 0 < env.selectRet) (hpos : 0 < env.readLen)
    (hst : storesInBuffer env.readBuf env.readLen.toNat = true)
    (hn : getLastNumberInBuffer env.readBuf env.readLen.toNat = some n) :
    (getNewPetExpiration env fd interval timeout expiration).map PetResult.expiration
      = some (if 0 ≤ n then timeInNSeconds (wrapInt n) env.ct3
          else timeInNSeconds timeout env.ct3) := by
  have hl : ¬ env.readLen ≤ 0 := by omega
  unfold getNewPetExpiration
  simp only [isFifoReadyToRead, gt_iff_lt, hready, if_true, one_ne_zero, if_false, hl, hst,
    Bool.true_eq_false, hn, ge_iff_le]
  split <;> rfl

/-- C16 (counterexample): the chunk `"\0\n\n"` ends in an empty newline-terminated
line, yet `getLastNumberInBuffer` returns -1 and `getNewPetExpiration` applies
the liveness fallback (clock reading plus timeout 30), not the clock reading. -/
theorem getLastNumberInBuffer_nul_before_empty_line :
    getLastNumberInBuffer (Mem.ofBytes ([0] ++ [10, 10])) 3 = some (-1) ∧
      (getNewPetExpiration ⟨⟨90, 0⟩, ⟨90, 0⟩, 1, 3, Mem.ofBytes ([0] ++ [10, 10]), ⟨0, 4⟩,
        ⟨100, 0⟩⟩ 4 10 30 ⟨120, 0⟩).map PetResult.expiration = some ⟨130, 0⟩ := by
  decide

/-- C16 (amended): an empty token is accepted as the integer 0.  For every
one-byte buffer, and for every buffer without NUL bytes that ends in an empty
newline-terminated line (it ends in `"\n\n"`), `getLastNumberInBuffer` returns 0
and `getNewPetExpiration` sets the deadline to the (normalised) clock reading
itself, not to the liveness fallback nor to an earlier valid integer. -/
theorem getLastNumberInBuffer_empty_token (env : PetEnv) (fd interval timeout : Int)
    (expiration : Timeval) (bs : List Nat)
    (hshape : bs.length = 1 ∨ ((∀ c ∈ bs, c ≠ 0) ∧ ∃ pre, bs = pre ++ [10, 10]))
    (hready : 0 < env.selectRet) (hlen : env.readLen = bs.length)
    (hbuf : Mem.holds env.readBuf 0 bs) (hct : env.ct3.normalized) :
    getLastNumberInBuffer env.readBuf bs.length = some 0 ∧
      (getNewPetExpiration env fd interval timeout expiration).map PetResult.expiration
        = some env.ct3 := by
  have hnum : getLastNumberInBuffer env.readBuf bs.length = some 0 := by
    rcases hshape with h1 | ⟨hnul, pre, hpre⟩
    · rw [h1]; exact getLastNumberInBuffer_single_byte _
    · subst hpre
      exact getLastNumberInBuffer_empty_last_line env.readBuf pre
        (fun c hc => hnul c (List.mem_append_left _ hc)) hbuf
  refine ⟨hnum, ?_⟩
  have hpos : 0 < env.readLen := by
    rw [hlen]
    rcases hshape with h1 | ⟨_, pre, hpre⟩
    · omega
    · subst hpre; simp; omega
  have hnat : env.readLen.toNat = bs.length := by rw [hlen]; simp
  have hst : storesInBuffer env.readBuf bs.length = true := by
    rcases hshape with h1 | ⟨hnul, pre, hpre⟩
    · rw [h1]; exact storesInBuffer_single_byte _
    · subst hpre
      exact storesInBuffer_empty_last_line env.readBuf pre
        (fun c hc => hnul c (List.mem_append_left _ hc)) hbuf
  rw [getNewPetExpiration_of_number env fd interval timeout expiration 0 hready hpos
    (by rw [hnat]; exact hst) (by rw [hnat]; exact hnum)]
  simp only [le_refl, if_true]
  have hw : wrapInt 0 = 0 := by decide
  rw [hw, timeInNSeconds_zero _ hct]

/-- C16 (witness): the chunk `"42\n\n"` read at clock reading 100 s yields 0 and
the deadline 100 s. -/
theorem getLastNumberInBuffer_empty_token_witness :
    getLastNumberInBuffer (Mem.ofString "42\n\n") ([52, 50] ++ [10, 10]).length = some 0 ∧
      (getNewPetExpiration ⟨⟨90, 0⟩, ⟨90, 0⟩, 1, 4, Mem.ofString "42\n\n", ⟨0, 4⟩, ⟨100, 0⟩⟩
        4 10 30 ⟨120, 0⟩).map PetResult.expiration = some ⟨100, 0⟩ :=
  getLastNumberInBuffer_empty_token
    ⟨⟨90, 0⟩, ⟨90, 0⟩, 1, 4, Mem.ofString "42\n\n", ⟨0, 4⟩, ⟨100, 0⟩⟩ 4 10 30 ⟨120, 0⟩
    ([52, 50] ++ [10, 10]) (Or.inr ⟨by decide, [52, 50], rfl⟩) (by decide) (by decide)
    (by decide) (by decide)

/-! ## A store outside `buf` -/

/-- One iteration of the scan on a line followed by further bytes without NUL:
the newline is overwritten and the cursor moves behind it. -/
theorem scanStep_line_rest (len : Nat) (mem : Mem) (buf : Nat) (num : Int) (t rest : List Nat)
    (ht : isToken t) (hrest : ∀ c ∈ rest, c ≠ 0)
    (hh : Mem.holds mem buf (t ++ 10 :: rest))
    (hlen : buf + (t ++ 10 :: rest).length = len) (hz : mem len = 0) :
    scanStep len mem buf num = some (mem.write (buf + t.length) 0, buf + t.length + 1,
      if (strtol t).2 = t.length then (strtol t).1 else num) := by
  simp only [List.length_append, List.length_cons] at hlen
  have hnul : ∀ c ∈ t ++ 10 :: rest, c ≠ 0 := by
    intro c hc
    rcases List.mem_append.1 hc with e | e
    · exact (ht c e).1
    · rcases List.mem_cons.1 e with e1 | e1
      · omega
      · exact hrest c e1
  have hs : cstr mem (len + 1) buf = some (t ++ 10 :: rest) := by
    apply cstr_eq_of_holds mem _ hnul (len + 1) buf hh
    · simp only [List.length_append, List.length_cons]
      have e : buf + (t.length + (rest.length + 1)) = len := by omega
      rw [e]; exact hz
    · simp only [List.length_append, List.length_cons]; omega
  have hh2 := (holds_append mem t (10 :: rest) buf).1 hh
  have htk : cstr (mem.write (buf + t.length) 0) (len + 1) buf = some t := by
    apply cstr_eq_of_holds _ t (fun c hc => (ht c hc).1) (len + 1) buf
    · exact holds_write mem _ 0 t buf (Or.inr (le_refl _)) hh2.1
    · simp [Mem.write]
    · omega
  unfold scanStep
  rw [hs]
  simp only [strchr_newline t rest (fun c hc => (ht c hc).2), htk, Nat.add_left_cancel_iff]

/-- The iteration on a last token without newline stores at `cursor + len - 1`. -/
theorem scanStep_tail (len : Nat) (mem : Mem) (buf : Nat) (num : Int) (tail : List Nat)
    (ht : isToken tail) (hh : Mem.holds mem buf tail) (hlen : buf + tail.length = len)
    (hlt : buf < len) (hz : mem len = 0) :
    ∃ st, scanStep len mem buf num = some st ∧ st.2.1 = buf + len - 1 + 1 := by
  have hs : cstr mem (len + 1) buf = some tail := by
    apply cstr_eq_of_holds mem _ (fun c hc => (ht c hc).1) (len + 1) buf hh
    · rw [hlen]; exact hz
    · omega
  have hc : strchr tail 10 = none := strchr_none tail 10 (fun c hc => (ht c hc).2)
  have hz1 : (mem.write (buf + len - 1) 0) len = 0 := by
    unfold Mem.write
    by_cases e : len = buf + len - 1
    · simp [← e]
    · simp [e, hz]
  obtain ⟨tok, htok⟩ := cstr_isSome (mem.write (buf + len - 1) 0) len hz1 (len + 1) buf
    (by omega) (by omega)
  unfold scanStep
  rw [hs]
  simp only [hc, htok]
  exact ⟨_, rfl, rfl⟩

/-- On a chunk of newline-terminated lines followed by a non-empty last token
without newline, the scan stores at `cursor + len - 1`, the cursor being the
start of the last token. -/
theorem scanStores_unterminated (len : Nat) (tail : List Nat) (htail : isToken tail)
    (hne : tail ≠ []) (toks : List (List Nat)) :
    ∀ (fuel : Nat) (mem : Mem) (buf : Nat) (num : Int),
      toks.length + 1 ≤ fuel → (∀ t ∈ toks, isToken t) →
      Mem.holds mem buf (joinLines toks ++ tail) →
      buf + (joinLines toks ++ tail).length = len → mem len = 0 →
      buf + (joinLines toks).length + len - 1 ∈ scanStores len fuel mem buf num := by
  have hpos : 0 < tail.length := List.length_pos.2 hne
  induction toks with
  | nil =>
    intro fuel mem buf num hf _ hh hlen hz
    cases fuel with
    | zero => exact absurd hf (Nat.not_succ_le_zero _)
    | succ n =>
      simp only [joinLines, List.nil_append, List.length_nil, Nat.add_zero] at hh hlen ⊢
      have hlt : buf < len := by omega
      obtain ⟨st, hst, hp⟩ := scanStep_tail len mem buf num tail htail hh hlen hlt hz
      rw [scanStores, if_pos hlt, hst]
      simp only [hp, Nat.add_sub_cancel, List.mem_cons, true_or]
  | cons t ts ih =>
    intro fuel mem buf num hf htok hh hlen hz
    cases fuel with
    | zero => exact absurd hf (Nat.not_succ_le_zero _)
    | succ n =>
      have ht : isToken t := htok t (List.mem_cons_self _ _)
      have hts : ∀ u ∈ ts, isToken u := fun u hu => htok u (List.mem_cons_of_mem _ hu)
      have hrestnul : ∀ c ∈ joinLines ts ++ tail, c ≠ 0 := by
        intro c hc
        rcases List.mem_append.1 hc with e | e
        · exact joinLines_no_nul ts hts c e
        · exact (htail c e).1
      have hform : joinLines (t :: ts) ++ tail = t ++ 10 :: (joinLines ts ++ tail) := by
        simp [joinLines]
      rw [hform] at hh hlen
      have hstep := scanStep_line_rest len mem buf num t (joinLines ts ++ tail) ht hrestnul hh
        hlen hz
      have hh2 := (holds_append mem t (10 :: (joinLines ts ++ tail)) buf).1 hh
      have hrest : Mem.holds mem (buf + t.length + 1) (joinLines ts ++ tail) := hh2.2.2
      simp only [List.length_append, List.length_cons] at hlen
      have hlt : buf < len := by omega
      have hz1 : (mem.write (buf + t.length) 0) len = 0 := by
        have hne1 : len ≠ buf + t.length := by omega
        simp [Mem.write, hne1, hz]
      have hrec := ih n (mem.write (buf + t.length) 0) (buf + t.length + 1)
        (if (strtol t).2 = t.length then (strtol t).1 else num) (by simpa using hf) hts
        (holds_write mem _ 0 _ _ (Or.inl (by omega)) hrest)
        (by simp only [List.length_append]; omega) hz1
      rw [scanStores, if_pos hlt, hstep]
      simp only [List.mem_cons]
      right
      have e : buf + (joinLines (t :: ts)).length + len - 1
          = buf + t.length + 1 + (joinLines ts).length + len - 1 := by
        simp only [joinLines, List.length_append, List.length_cons]; omega
      rw [e]
      exact hrec

/-- A chunk whose last token has no newline and starts at offset `c ≥ 2` makes
`getLastNumberInBuffer` store at `c + len - 1`; when this is not inside the 1024
bytes of `buf`, the `getNewPetExpiration` call has no defined result. -/
theorem getNewPetExpiration_store_outside (env : PetEnv) (fd interval timeout : Int)
    (expiration : Timeval) (toks : List (List Nat)) (tail : List Nat)
    (htoks : ∀ t ∈ toks, isToken t) (htail : isToken tail) (hne : tail ≠ [])
    (hready : 0 < env.selectRet)
    (hlen : env.readLen = (joinLines toks ++ tail).length)
    (hbuf : Mem.holds env.readBuf 0 (joinLines toks ++ tail))
    (h2 : 2 ≤ (joinLines toks).length)
    (hout : bufSize ≤ (joinLines toks).length + (joinLines toks ++ tail).length - 1) :
    (joinLines toks).length + (joinLines toks ++ tail).length - 1
        ∈ storesOf env.readBuf (joinLines toks ++ tail).length ∧
      getNewPetExpiration env fd interval timeout expiration = none := by
  have hmem := scanStores_unterminated (joinLines toks ++ tail).length tail htail hne toks
    ((joinLines toks ++ tail).length + 1) (env.readBuf.write (joinLines toks ++ tail).length 0)
    0 (-1)
    (by
      have := length_le_joinLines toks
      simp only [List.length_append]; omega)
    htoks (holds_write env.readBuf _ 0 _ 0 (Or.inr (by omega)) hbuf) (by omega)
    (by simp [Mem.write])
  simp only [Nat.zero_add] at hmem
  have hin : (joinLines toks).length + (joinLines toks ++ tail).length - 1
      ∈ storesOf env.readBuf (joinLines toks ++ tail).length := by
    unfold storesOf
    exact List.mem_cons_of_mem _ hmem
  refine ⟨hin, ?_⟩
  have hst : storesInBuffer env.readBuf (joinLines toks ++ tail).length = false := by
    cases hb : storesInBuffer env.readBuf (joinLines toks ++ tail).length with
    | false => rfl
    | true =>
      unfold storesInBuffer at hb
      have := List.all_eq_true.1 hb _ hin
      simp only [Bool.or_eq_true, decide_eq_true_eq] at this
      omega
  have hpos : 0 < tail.length := List.length_pos.2 hne
  have hl : ¬ env.readLen ≤ 0 := by
    rw [hlen]; simp only [List.length_append]; omega
  have hnat : env.readLen.toNat = (joinLines toks ++ tail).length := by
    rw [hlen]; exact Int.toNat_ofNat _
  unfold getNewPetExpiration
  simp only [isFifoReadyToRead, gt_iff_lt, hready, if_true, one_ne_zero, if_false, hl, hnat, hst]

theorem isToken_replicate (n a : Nat) (h0 : a ≠ 0) (h10 : a ≠ 10) :
    isToken (List.replicate n a) := by
  intro c hc
  have := List.eq_of_mem_replicate hc
  subst this
  exact ⟨h0, h10⟩

/-- A read of 1000 bytes, `"7\n"`, 51 times `x`, a newline and 946 times `y`: the
last token starts at offset 54, the scan stores at offset 54 + 1000 - 1 = 1053,
outside `char buf[1024]`, and the call has no defined result. -/
theorem getNewPetExpiration_store_outside_example :
    getNewPetExpiration ⟨⟨90, 0⟩, ⟨90, 0⟩, 1, 1000,
      Mem.ofBytes (joinLines [[55], List.replicate 51 120] ++ List.replicate 946 121),
      ⟨0, 4⟩, ⟨100, 0⟩⟩ 4 10 30 ⟨120, 0⟩ = none :=
  (getNewPetExpiration_store_outside
    ⟨⟨90, 0⟩, ⟨90, 0⟩, 1, 1000,
      Mem.ofBytes (joinLines [[55], List.replicate 51 120] ++ List.replicate 946 121),
      ⟨0, 4⟩, ⟨100, 0⟩⟩ 4 10 30 ⟨120, 0⟩
    [[55], List.replicate 51 120] (List.replicate 946 121)
    (by
      intro t ht
      simp only [List.mem_cons, List.mem_singleton, List.not_mem_nil, or_false] at ht
      rcases ht with e | e
      · subst e; decide
      · subst e; exact isToken_replicate 51 120 (by decide) (by decide))
    (isToken_replicate 946 121 (by decide) (by decide))
    (by
      intro h
      have := congrArg List.length h
      simp only [List.length_replicate, List.length_nil] at this
      omega)
    (by decide)
    (by
      simp only [joinLines, List.length_append, List.length_cons, List.length_replicate,
        List.length_nil]
      norm_num)
    (holds_ofBytes [] (joinLines [[55], List.replicate 51 120] ++ List.replicate 946 121))
    (by
      simp only [joinLines, List.length_append, List.length_cons, List.length_replicate,
        List.length_nil]
      omega)
    (by
      simp only [joinLines, List.length_append, List.length_cons, List.length_replicate,
        List.length_nil, bufSize]
      omega)).2

end Watchdogd
